import Mathlib

/-!
Verification of the tile-reading and image-preparation core of `vpt-core`
(`src/vpt_core/io/image.py`).

The embedding models:
* Python `dict` (insertion-ordered association) as an association list with
  first-occurrence lookup and in-place update;
* `np.ndarray` values abstractly as an arbitrary type `α` together with a
  `shape : α → ℕ × ℕ` view (numpy `.shape` of a 2-D array);
* Python float division of image dimensions as exact division in `ℚ`;
* raised exceptions as `Except` errors (`KeyError`, `ValueError`,
  `ZeroDivisionError`, `IndexError` are separate constructors);
* the rasterio read of one attempt as an oracle `attempt : ℤ → AttemptResult α`
  (`osError` is a raised `OSError`, the only exception `read_tile` catches),
  and `np.squeeze` as an abstract function `squeeze : α → β`.
-/

namespace VptCore

/-! ## Python dict as an insertion-ordered association list -/

variable {κ : Type} [DecidableEq κ] {ν : Type}

/-- Lookup of `d[k]` / `d.get(k)`: the first binding of the key, if any. -/
def dictGet : List (κ × ν) → κ → Option ν
  | [], _ => none
  | (k, v) :: rest, key => if k = key then some v else dictGet rest key

/-- Assignment `d[k] = v`: Python keeps an existing key at its position and
updates its value; a new key is appended at the end. -/
def dictSet : List (κ × ν) → κ → ν → List (κ × ν)
  | [], key, val => [(key, val)]
  | (k, v) :: rest, key, val =>
    if k = key then (key, val) :: rest else (k, v) :: dictSet rest key val

theorem dictGet_dictSet (l : List (κ × ν)) (key key' : κ) (val : ν) :
    dictGet (dictSet l key val) key' = if key' = key then some val else dictGet l key' := by
  induction l with
  | nil =>
    by_cases h : key' = key
    · simp [dictSet, dictGet, h]
    · simp [dictSet, dictGet, h, Ne.symm h]
  | cons p rest ih =>
    obtain ⟨k, v⟩ := p
    by_cases hk : k = key
    · subst hk
      by_cases h : key' = k
      · simp [dictSet, dictGet, h]
      · simp [dictSet, dictGet, h, Ne.symm h]
    · by_cases h : key' = key
      · subst h
        simp [dictSet, dictGet, hk, Ne.symm hk, ih]
      · by_cases hkk : k = key'
        · simp [dictSet, dictGet, hk, hkk, ih, h]
        · simp [dictSet, dictGet, hk, hkk, ih, h]

theorem dictGet_mem_keys {l : List (κ × ν)} {k : κ} (h : k ∈ l.map Prod.fst) :
    ∃ v, dictGet l k = some v := by
  induction l with
  | nil => simp at h
  | cons p rest ih =>
    by_cases hk : p.1 = k
    · exact ⟨p.2, by simp [dictGet, hk]⟩
    · have : k ∈ rest.map Prod.fst := by
        rcases List.mem_map.mp h with ⟨q, hq, hq1⟩
        rcases List.mem_cons.mp hq with h1 | h1
        · exact absurd (h1 ▸ hq1) hk
        · exact List.mem_map.mpr ⟨q, h1, hq1⟩
      rcases ih this with ⟨v, hv⟩
      exact ⟨v, by simpa [dictGet, hk] using hv⟩

theorem dictGet_none_of_not_mem {l : List (κ × ν)} {k : κ} (h : k ∉ l.map Prod.fst) :
    dictGet l k = none := by
  induction l with
  | nil => rfl
  | cons p rest ih =>
    simp only [List.map_cons, List.mem_cons, not_or] at h
    have : ¬ p.1 = k := fun hc => h.1 hc.symm
    simpa [dictGet, this] using ih h.2

/-! ## Tile Reader (`read_tile`) -/

/-- Outcome of one rasterio windowed read attempt: the raw array, or a raised
`OSError` (the only exception class the retry loop catches). -/
inductive AttemptResult (α : Type) : Type
  | ok (image : α)
  | osError
  deriving DecidableEq

/-- One diagnostic line printed by a failed, non-final attempt:
`Failed to read {path} at {window}. Retrying {try_number}/{num_retries}.` -/
structure RetryMessage where
  path : String
  window : ℤ × ℤ × ℤ × ℤ
  tryNumber : ℤ
  numRetries : ℤ
  deriving DecidableEq

/-- The terminal `IOError(f"Failed to read {path} at {window}")`. -/
structure TileIOError where
  path : String
  window : ℤ × ℤ × ℤ × ℤ
  deriving DecidableEq

/-- Consecutive integers `lo, lo+1, ..., lo+len-1`, the iteration values of
Python `range` used by the retry loop. -/
def intRange (lo : ℤ) : ℕ → List ℤ
  | 0 => []
  | len + 1 => lo :: intRange (lo + 1) len

theorem mem_intRange {t lo : ℤ} {len : ℕ} :
    t ∈ intRange lo len ↔ lo ≤ t ∧ t < lo + len := by
  induction len generalizing lo with
  | zero =>
    constructor
    · intro h; simp [intRange] at h
    · intro h
      exfalso
      push_cast at h
      omega
  | succ n ih =>
    simp only [intRange, List.mem_cons, ih]
    constructor
    · rintro (rfl | ⟨h1, h2⟩)
      · refine ⟨le_refl t, ?_⟩
        push_cast
        omega
      · refine ⟨by omega, ?_⟩
        push_cast at h2 ⊢
        omega
    · rintro ⟨h1, h2⟩
      rcases eq_or_lt_of_le h1 with rfl | hlt
      · exact Or.inl rfl
      · refine Or.inr ⟨by omega, ?_⟩
        push_cast at h2 ⊢
        omega

theorem intRange_append (lo : ℤ) (a b : ℕ) :
    intRange lo (a + b) = intRange lo a ++ intRange (lo + a) b := by
  induction a generalizing lo with
  | zero => simp [intRange]
  | succ n ih =>
    have h1 : n + 1 + b = (n + b) + 1 := by omega
    rw [h1]
    show lo :: intRange (lo + 1) (n + b) = (lo :: intRange (lo + 1) n) ++ intRange (lo + (n + 1 : ℕ)) b
    rw [List.cons_append, ih (lo + 1)]
    have h2 : lo + 1 + (n : ℤ) = lo + ((n : ℕ) + 1 : ℕ) := by push_cast; ring
    rw [h2]

/-- Body of the `for try_number in range(1, num_tries + 1): ... else: raise`
loop, recursing over the remaining attempt numbers.  A successful attempt
breaks out with the squeezed image; a failed attempt prints its retry line
when `try_number + 1 <= num_tries` and continues; an exhausted range raises
`IOError`. -/
def readTileGo {α β : Type} (attempt : ℤ → AttemptResult α) (squeeze : α → β)
    (numTries : ℤ) (path : String) (window : ℤ × ℤ × ℤ × ℤ) :
    List ℤ → List RetryMessage × Except TileIOError β
  | [] => ([], Except.error ⟨path, window⟩)
  | t :: rest =>
    match attempt t with
    | AttemptResult.ok image => ([], Except.ok (squeeze image))
    | AttemptResult.osError =>
      let msgs := if t + 1 ≤ numTries then [⟨path, window, t, numTries - 1⟩] else []
      let r := readTileGo attempt squeeze numTries path window rest
      (msgs ++ r.1, r.2)

/-- Embedding of `read_tile(window, path, num_tries)`.  The first component
collects the diagnostic lines printed, the second is the returned array or the
raised `IOError`. -/
def read_tile {α β : Type} (attempt : ℤ → AttemptResult α) (squeeze : α → β)
    (window : ℤ × ℤ × ℤ × ℤ) (path : String) (numTries : ℤ) :
    List RetryMessage × Except TileIOError β :=
  readTileGo attempt squeeze numTries path window (intRange 1 numTries.toNat)

/-- Diagnostic lines produced when every attempt in `ts` fails: one line per
attempt number `t` with `t + 1 ≤ numTries` (i.e. every failed attempt except
the final one). -/
def retryLines (numTries : ℤ) (path : String) (window : ℤ × ℤ × ℤ × ℤ) :
    List ℤ → List RetryMessage
  | [] => []
  | t :: rest =>
    (if t + 1 ≤ numTries then [⟨path, window, t, numTries - 1⟩] else []) ++
      retryLines numTries path window rest

theorem retryLines_append (numTries : ℤ) (path : String) (window : ℤ × ℤ × ℤ × ℤ)
    (l₁ l₂ : List ℤ) :
    retryLines numTries path window (l₁ ++ l₂) =
      retryLines numTries path window l₁ ++ retryLines numTries path window l₂ := by
  induction l₁ with
  | nil => simp [retryLines]
  | cons t rest ih => simp [retryLines, ih]

theorem retryLines_all_le {numTries : ℤ} {path : String} {window : ℤ × ℤ × ℤ × ℤ}
    {ts : List ℤ} (h : ∀ t ∈ ts, t + 1 ≤ numTries) :
    retryLines numTries path window ts =
      ts.map (fun t => ⟨path, window, t, numTries - 1⟩) := by
  induction ts with
  | nil => rfl
  | cons t rest ih =>
    have ht := h t (List.mem_cons_self t rest)
    simp only [retryLines, if_pos ht, List.map_cons, List.singleton_append]
    rw [ih (fun u hu => h u (List.mem_cons_of_mem t hu))]

theorem readTileGo_all_fail {α β : Type} {attempt : ℤ → AttemptResult α} {squeeze : α → β}
    {numTries : ℤ} {path : String} {window : ℤ × ℤ × ℤ × ℤ} {ts : List ℤ}
    (h : ∀ t ∈ ts, attempt t = AttemptResult.osError) :
    readTileGo attempt squeeze numTries path window ts =
      (retryLines numTries path window ts, Except.error ⟨path, window⟩) := by
  induction ts with
  | nil => rfl
  | cons t rest ih =>
    have ht := h t (List.mem_cons_self t rest)
    have ihr := ih (fun u hu => h u (List.mem_cons_of_mem t hu))
    simp [readTileGo, ht, ihr, retryLines]

theorem readTileGo_first_ok {α β : Type} {attempt : ℤ → AttemptResult α} {squeeze : α → β}
    {numTries : ℤ} {path : String} {window : ℤ × ℤ × ℤ × ℤ} {ts₁ ts₂ : List ℤ}
    {j : ℤ} {img : α}
    (h1 : ∀ t ∈ ts₁, attempt t = AttemptResult.osError)
    (h2 : attempt j = AttemptResult.ok img) :
    readTileGo attempt squeeze numTries path window (ts₁ ++ j :: ts₂) =
      (retryLines numTries path window ts₁, Except.ok (squeeze img)) := by
  induction ts₁ with
  | nil => simp [readTileGo, h2, retryLines]
  | cons t rest ih =>
    have ht := h1 t (List.mem_cons_self t rest)
    have ihr := ih (fun u hu => h1 u (List.mem_cons_of_mem t hu))
    simp [readTileGo, ht, ihr, retryLines]

theorem readTileGo_error_inv {α β : Type} {attempt : ℤ → AttemptResult α} {squeeze : α → β}
    {numTries : ℤ} {path : String} {window : ℤ × ℤ × ℤ × ℤ} {ts : List ℤ}
    {msgs : List RetryMessage} {e : TileIOError}
    (h : readTileGo attempt squeeze numTries path window ts = (msgs, Except.error e)) :
    e = ⟨path, window⟩ ∧ ∀ t ∈ ts, attempt t = AttemptResult.osError := by
  induction ts generalizing msgs with
  | nil =>
    simp only [readTileGo, Prod.mk.injEq] at h
    exact ⟨by simpa using h.2.symm, by simp⟩
  | cons t rest ih =>
    rcases hat : attempt t with img | _
    · simp [readTileGo, hat] at h
    · simp only [readTileGo, hat, Prod.mk.injEq] at h
      have hresteq : readTileGo attempt squeeze numTries path window rest =
          ((readTileGo attempt squeeze numTries path window rest).1, Except.error e) := by
        rw [← h.2]
      have hih := ih hresteq
      exact ⟨hih.1, by
        intro u hu
        rcases List.mem_cons.mp hu with rfl | hu'
        · exact hat
        · exact hih.2 u hu'⟩

theorem intRange_one_split (n j : ℤ) (h1 : 1 ≤ j) (h2 : j ≤ n) :
    intRange 1 n.toNat =
      intRange 1 (j - 1).toNat ++ j :: intRange (j + 1) (n - j).toNat := by
  have ha : (j - 1).toNat + ((n - j).toNat + 1) = n.toNat := by omega
  rw [← ha, intRange_append]
  have hcast : (1 : ℤ) + ((j - 1).toNat : ℤ) = j := by omega
  rw [hcast]
  rfl

theorem mem_intRange_le {t : ℤ} {n : ℤ} (hn : 0 ≤ n)
    (h : t ∈ intRange 1 n.toNat) : 1 ≤ t ∧ t ≤ n := by
  have := mem_intRange.mp h
  omega

/-- C9 helper: `range(1, num_tries + 1)` is empty when `num_tries ≤ 0`. -/
theorem intRange_toNat_nonpos {n : ℤ} (h : n ≤ 0) : intRange 1 n.toNat = [] := by
  have : n.toNat = 0 := by omega
  rw [this]
  rfl

/-- C2: `read_tile` returns the squeezed array of the first successful attempt
whenever some attempt among `1..num_tries` succeeds (however many earlier
attempts failed with an `OSError`), and it raises the `IOError` naming the path
and window exactly when all `num_tries` attempts fail; the failure is the
returned `Except.error`, so it propagates to the caller. -/
theorem read_tile_retry_semantics {α β : Type} (attempt : ℤ → AttemptResult α)
    (squeeze : α → β) (window : ℤ × ℤ × ℤ × ℤ) (path : String) (numTries : ℤ)
    (hn : 1 ≤ numTries) :
    ((∀ j : ℤ, 1 ≤ j → j ≤ numTries → attempt j = AttemptResult.osError) →
        (read_tile attempt squeeze window path numTries).2 = Except.error ⟨path, window⟩) ∧
    (∀ (j : ℤ) (img : α), 1 ≤ j → j ≤ numTries → attempt j = AttemptResult.ok img →
        (∀ i : ℤ, 1 ≤ i → i < j → attempt i = AttemptResult.osError) →
        (read_tile attempt squeeze window path numTries).2 = Except.ok (squeeze img)) ∧
    (∀ (msgs : List RetryMessage) (e : TileIOError),
        read_tile attempt squeeze window path numTries = (msgs, Except.error e) →
        e = ⟨path, window⟩ ∧
          ∀ j : ℤ, 1 ≤ j → j ≤ numTries → attempt j = AttemptResult.osError) := by
  refine ⟨?_, ?_, ?_⟩
  · intro hall
    have h : ∀ t ∈ intRange 1 numTries.toNat, attempt t = AttemptResult.osError := by
      intro t ht
      have := mem_intRange_le (by omega) ht
      exact hall t this.1 this.2
    rw [read_tile, readTileGo_all_fail h]
  · intro j img hj1 hj2 hok hbefore
    have hsplit := intRange_one_split numTries j hj1 hj2
    have hfail : ∀ t ∈ intRange 1 (j - 1).toNat, attempt t = AttemptResult.osError := by
      intro t ht
      have := mem_intRange_le (by omega) ht
      exact hbefore t this.1 (by omega)
    rw [read_tile, hsplit, readTileGo_first_ok hfail hok]
  · intro msgs e h
    have := readTileGo_error_inv h
    refine ⟨this.1, ?_⟩
    intro j hj1 hj2
    exact this.2 j (mem_intRange.mpr ⟨hj1, by omega⟩)

/-- C2 witness: with three attempts where the first fails and the second
succeeds with array 7, `read_tile` returns 7; with all attempts failing it
raises the `IOError` naming path and window. -/
theorem read_tile_retry_semantics_witness :
    (read_tile (fun j => if j = 2 then AttemptResult.ok 7 else AttemptResult.osError)
        (id : ℕ → ℕ) (0, 0, 2, 2) "f.tif" 3).2 = Except.ok 7 ∧
    (read_tile (fun _ => (AttemptResult.osError : AttemptResult ℕ))
        (id : ℕ → ℕ) (0, 0, 2, 2) "f.tif" 3).2 = Except.error ⟨"f.tif", (0, 0, 2, 2)⟩ := by
  constructor
  · exact (read_tile_retry_semantics _ _ _ _ 3 (by norm_num)).2.1 2 7 (by norm_num)
      (by norm_num) (by norm_num)
      (fun i h1 h2 => by
        have : i = 1 := by omega
        subst this
        norm_num)
  · exact (read_tile_retry_semantics _ _ _ _ 3 (by norm_num)).1 (fun j h1 h2 => rfl)

/-- C7: every attempt that fails with an `OSError`, other than the final
(`num_tries`-th) attempt, prints exactly one diagnostic line carrying the path,
the window and the retry counters (`tryNumber` out of `numRetries = num_tries - 1`
total retries, so `numRetries - tryNumber + 1` attempts remain); the final
attempt's failure prints nothing.  Stated for the two possible runs: all
attempts fail, or the first success is at attempt `j`. -/
theorem read_tile_retry_message_lines {α β : Type} (attempt : ℤ → AttemptResult α)
    (squeeze : α → β) (window : ℤ × ℤ × ℤ × ℤ) (path : String) (numTries : ℤ)
    (hn : 1 ≤ numTries) :
    ((∀ j : ℤ, 1 ≤ j → j ≤ numTries → attempt j = AttemptResult.osError) →
        (read_tile attempt squeeze window path numTries).1 =
          (intRange 1 (numTries - 1).toNat).map
            (fun t => ⟨path, window, t, numTries - 1⟩)) ∧
    (∀ (j : ℤ) (img : α), 1 ≤ j → j ≤ numTries → attempt j = AttemptResult.ok img →
        (∀ i : ℤ, 1 ≤ i → i < j → attempt i = AttemptResult.osError) →
        (read_tile attempt squeeze window path numTries).1 =
          (intRange 1 (j - 1).toNat).map
            (fun t => ⟨path, window, t, numTries - 1⟩)) := by
  constructor
  · intro hall
    have h : ∀ t ∈ intRange 1 numTries.toNat, attempt t = AttemptResult.osError := by
      intro t ht
      have := mem_intRange_le (by omega) ht
      exact hall t this.1 this.2
    rw [read_tile, readTileGo_all_fail h]
    have hsplit := intRange_one_split numTries numTries hn le_rfl
    rw [hsplit, retryLines_append]
    have hle : ∀ t ∈ intRange 1 (numTries - 1).toNat, t + 1 ≤ numTries := by
      intro t ht
      have := mem_intRange_le (by omega) ht
      omega
    rw [retryLines_all_le hle]
    have hnot : ¬ (numTries + 1 ≤ numTries) := by omega
    have hz : retryLines numTries path window
        (numTries :: intRange (numTries + 1) (numTries - numTries).toNat) = [] := by
      have h0 : (numTries - numTries).toNat = 0 := by omega
      rw [h0]
      simp [retryLines, hnot, intRange]
    rw [hz, List.append_nil]
  · intro j img hj1 hj2 hok hbefore
    have hsplit := intRange_one_split numTries j hj1 hj2
    have hfail : ∀ t ∈ intRange 1 (j - 1).toNat, attempt t = AttemptResult.osError := by
      intro t ht
      have := mem_intRange_le (by omega) ht
      exact hbefore t this.1 (by omega)
    rw [read_tile, hsplit, readTileGo_first_ok hfail hok]
    have hle : ∀ t ∈ intRange 1 (j - 1).toNat, t + 1 ≤ numTries := by
      intro t ht
      have := mem_intRange_le (by omega) ht
      omega
    exact retryLines_all_le hle

/-- C7 witness: with `num_tries = 3` and all attempts failing, the retry lines
are exactly one for attempt 1 and one for attempt 2 (none for the final
attempt 3), each naming the path, window and retry counters. -/
theorem read_tile_retry_message_lines_witness :
    (read_tile (fun _ => (AttemptResult.osError : AttemptResult ℕ))
        (id : ℕ → ℕ) (0, 0, 2, 2) "g.tif" 3).1 =
      [⟨"g.tif", (0, 0, 2, 2), 1, 2⟩, ⟨"g.tif", (0, 0, 2, 2), 2, 2⟩] := by
  have h := (read_tile_retry_message_lines
      (fun _ => (AttemptResult.osError : AttemptResult ℕ)) (id : ℕ → ℕ)
      (0, 0, 2, 2) "g.tif" 3 (by norm_num)).1 (fun j h1 h2 => rfl)
  rw [h]
  rfl

/-- C9: with `num_tries ≤ 0`, the attempt loop body never runs: no read is
attempted (the result does not depend on the attempt oracle at all), no retry
line is printed, and the `IOError` naming the path and window is raised
unconditionally. -/
theorem read_tile_nonpositive_tries {α β : Type} (attempt : ℤ → AttemptResult α)
    (squeeze : α → β) (window : ℤ × ℤ × ℤ × ℤ) (path : String) (numTries : ℤ)
    (hn : numTries ≤ 0) :
    read_tile attempt squeeze window path numTries =
      ([], Except.error ⟨path, window⟩) := by
  rw [read_tile, intRange_toNat_nonpos hn]
  rfl

/-- C9 witness: `num_tries = 0` with an oracle whose every attempt would
succeed still raises the `IOError` immediately. -/
theorem read_tile_nonpositive_tries_witness :
    (0 : ℤ) ≤ 0 ∧
      read_tile (fun _ => AttemptResult.ok 5) (id : ℕ → ℕ) (1, 2, 3, 4) "h.tif" 0 =
        ([], Except.error ⟨"h.tif", (1, 2, 3, 4)⟩) :=
  ⟨le_refl 0, read_tile_nonpositive_tries _ _ _ _ 0 (le_refl 0)⟩

/-! ## Image Set container and Image Set Assembler -/

/-- Inner level of the `ImageSet`: a Python dict from z-layer index to array. -/
abbrev ZStack (α : Type) := List (ℤ × α)

/-- Python class `ImageSet(Dict[str, Dict[int, np.ndarray]])`: channel name to z-stack. -/
abbrev ImageSet (α : Type) := List (String × ZStack α)

/-- The dataclass `ImageInfo(channel, z_layer, full_path)`. -/
structure ImageInfo where
  channel : String
  z_layer : ℤ
  full_path : String
  deriving DecidableEq

/-- Two-level lookup `images[c][z]`, as an `Option`. -/
def dictGet2 {α : Type} (s : ImageSet α) (c : String) (z : ℤ) : Option α :=
  (dictGet s c).bind (fun zs => dictGet zs z)

/-- Evaluation of a list comprehension producing one value per element, where
an element may raise: the first raise aborts the whole comprehension. -/
def mapE {ε γ δ : Type} (f : γ → Except ε δ) : List γ → Except ε (List δ)
  | [] => Except.ok []
  | x :: xs =>
    match f x with
    | Except.error e => Except.error e
    | Except.ok y =>
      match mapE f xs with
      | Except.error e => Except.error e
      | Except.ok ys => Except.ok (y :: ys)

theorem mapE_ok_iff {ε γ δ : Type} (f : γ → Except ε δ) (l : List γ) :
    (∃ r, mapE f l = Except.ok r) ↔ ∀ x ∈ l, ∃ y, f x = Except.ok y := by
  induction l with
  | nil => simp [mapE]
  | cons x xs ih =>
    constructor
    · rintro ⟨r, hr⟩
      intro u hu
      rcases List.mem_cons.mp hu with rfl | hu'
      · rcases hfx : f u with e | y
        · rw [mapE, hfx] at hr; exact absurd hr (by simp)
        · exact ⟨y, rfl⟩
      · rcases hfx : f x with e | y
        · rw [mapE, hfx] at hr; exact absurd hr (by simp)
        · rcases hxs : mapE f xs with e | ys
          · rw [mapE, hfx, hxs] at hr; exact absurd hr (by simp)
          · exact (ih.mp ⟨ys, hxs⟩) u hu'
    · intro h
      rcases h x (List.mem_cons_self x xs) with ⟨y, hy⟩
      rcases ih.mpr (fun u hu => h u (List.mem_cons_of_mem x hu)) with ⟨ys, hys⟩
      exact ⟨y :: ys, by rw [mapE, hy, hys]⟩

theorem mapE_total {ε γ δ : Type} (f : γ → Except ε δ) (l : List γ) :
    (∃ r, mapE f l = Except.ok r) ∨ (∃ e, mapE f l = Except.error e) := by
  rcases h : mapE f l with e | r
  · exact Or.inr ⟨e, rfl⟩
  · exact Or.inl ⟨r, rfl⟩

theorem mapE_error_iff {ε γ δ : Type} (f : γ → Except ε δ) (l : List γ) :
    (∃ e, mapE f l = Except.error e) ↔ ∃ x ∈ l, ∃ e, f x = Except.error e := by
  constructor
  · rintro ⟨e, he⟩
    by_contra hc
    push_neg at hc
    have : ∀ x ∈ l, ∃ y, f x = Except.ok y := by
      intro x hx
      rcases hfx : f x with e' | y
      · exact absurd hfx (hc x hx e')
      · exact ⟨y, rfl⟩
    rcases (mapE_ok_iff f l).mpr this with ⟨r, hr⟩
    rw [hr] at he
    exact absurd he (by simp)
  · rintro ⟨x, hx, e, he⟩
    rcases mapE_total f l with ⟨r, hr⟩ | herr
    · rcases (mapE_ok_iff f l).mp ⟨r, hr⟩ x hx with ⟨y, hy⟩
      rw [he] at hy
      exact absurd hy (by simp)
    · exact herr

/-- Union of the z-layer key sets of all channels: `set().union(*self.values())`. -/
def ImageSet.z_levels {α : Type} (s : ImageSet α) : Finset ℤ :=
  s.foldr (fun p acc => (p.2.map Prod.fst).toFinset ∪ acc) ∅

theorem mem_z_levels {α : Type} (s : ImageSet α) (z : ℤ) :
    z ∈ ImageSet.z_levels s ↔ ∃ p ∈ s, z ∈ p.2.map Prod.fst := by
  induction s with
  | nil => simp [ImageSet.z_levels]
  | cons p rest ih =>
    simp only [ImageSet.z_levels, List.foldr_cons, Finset.mem_union, List.mem_toFinset]
    rw [show List.foldr (fun p acc => (p.2.map Prod.fst).toFinset ∪ acc) ∅ rest
      = ImageSet.z_levels rest from rfl, ih]
    simp only [List.mem_cons]
    constructor
    · rintro (h | ⟨q, hq, hz⟩)
      · exact ⟨p, Or.inl rfl, h⟩
      · exact ⟨q, Or.inr hq, hz⟩
    · rintro ⟨q, rfl | hq, hz⟩
      · exact Or.inl hz
      · exact Or.inr ⟨q, hq, hz⟩

/-- Embedding of `list(self.get(key, {}).values())`. -/
def ImageSet.as_list {α : Type} (s : ImageSet α) (key : String) : List α :=
  ((dictGet s key).getD []).map Prod.snd

/-- A `KeyError` raised inside `as_stack`: either `self[k]` on a missing
channel, or `z_stack[z]` / `self[k][z]` on a missing z-layer. -/
inductive StackKeyError : Type
  | channelKey (c : String)
  | layerKey (z : ℤ)
  deriving DecidableEq

/-- Lookup `z_stack[z]`, raising `KeyError(z)` when absent. -/
def getLayer {α : Type} (zs : ZStack α) (z : ℤ) : Except StackKeyError α :=
  match dictGet zs z with
  | some a => Except.ok a
  | none => Except.error (StackKeyError.layerKey z)

/-- Lookup `self[k]`, raising `KeyError(k)` when the channel is absent. -/
def getChannel {α : Type} (s : ImageSet α) (c : String) : Except StackKeyError (ZStack α) :=
  match dictGet s c with
  | some zs => Except.ok zs
  | none => Except.error (StackKeyError.channelKey c)

/-- Embedding of `ImageSet.as_stack`.  The z-layers of the union are iterated
(the Python `set` iteration order is unspecified; they are taken here in
ascending order, which the verified properties do not depend on), and for each
z the per-channel arrays are gathered; `np.array`/`np.stack` are modelled as
pure grouping into nested lists (their shape handling is outside this model;
§3 of the spec makes same-channel arrays homogeneous). -/
def ImageSet.as_stack {α : Type} (s : ImageSet α) (order : Option (List String)) :
    Except StackKeyError (List (List α)) :=
  match order with
  | none =>
    mapE (fun z => mapE (fun p => getLayer p.2 z) s) ((ImageSet.z_levels s).sort (· ≤ ·))
  | some ord =>
    if ord = [] then
      mapE (fun z => mapE (fun p => getLayer p.2 z) s) ((ImageSet.z_levels s).sort (· ≤ ·))
    else
      mapE (fun z => mapE (fun k => (getChannel s k).bind (fun zs => getLayer zs z)) ord)
        ((ImageSet.z_levels s).sort (· ≤ ·))

/-- The inner dict the assembly loop writes into: `images.get(channel)` when
that is truthy, a fresh `{}` otherwise (`if not images.get(channel):
images[channel] = {}` — note the falsy test also replaces an empty inner dict). -/
def effInner {α : Type} (s : ImageSet α) (c : String) : ZStack α :=
  match dictGet s c with
  | none => []
  | some zs => if zs.isEmpty then [] else zs

theorem dictGet_effInner {α : Type} (s : ImageSet α) (c : String) (z : ℤ) :
    dictGet (effInner s c) z = dictGet2 s c z := by
  unfold effInner dictGet2
  rcases h : dictGet s c with _ | zs
  · rfl
  · cases zs with
    | nil => rfl
    | cons q rest => rfl

/-- One step of the assembly loop body: ensure the channel's inner dict exists,
then store the tile at the z-layer (`images[channel][z_layer] = read_tile(...)`). -/
def assembleStep {α : Type} (s : ImageSet α) (info : ImageInfo) (img : α) : ImageSet α :=
  dictSet s info.channel (dictSet (effInner s info.channel) info.z_layer img)

/-- The assembly loop over the descriptor list; a failing `read_tile` aborts
the whole assembly with its `IOError`. -/
def assembleGo {α : Type} (readT : String → Except TileIOError α) :
    List ImageInfo → ImageSet α → Except TileIOError (ImageSet α)
  | [], s => Except.ok s
  | info :: rest, s =>
    match readT info.full_path with
    | Except.error e => Except.error e
    | Except.ok img => assembleGo readT rest (assembleStep s info img)

/-- Embedding of `get_segmentation_images(images_info, window_info)`.  The
parameter `readT` is `read_tile` applied to the shared window, i.e. the result
of reading one path. -/
def get_segmentation_images {α : Type} (readT : String → Except TileIOError α)
    (images_info : List ImageInfo) : Except TileIOError (ImageSet α) :=
  assembleGo readT images_info []

theorem dictGet2_assembleStep {α : Type} (s : ImageSet α) (info : ImageInfo) (img : α)
    (c : String) (z : ℤ) :
    dictGet2 (assembleStep s info img) c z =
      if c = info.channel ∧ z = info.z_layer then some img else dictGet2 s c z := by
  by_cases hc : c = info.channel
  · subst hc
    rw [dictGet2, assembleStep, dictGet_dictSet, if_pos rfl, Option.some_bind,
      dictGet_dictSet]
    by_cases hz : z = info.z_layer
    · rw [if_pos hz, if_pos ⟨rfl, hz⟩]
    · rw [if_neg hz, if_neg (fun h : _ ∧ z = info.z_layer => hz h.2), dictGet_effInner]
  · rw [dictGet2, assembleStep, dictGet_dictSet, if_neg hc,
      if_neg (fun h : c = info.channel ∧ _ => hc h.1)]
    rfl

theorem find?_append_none {γ : Type} (p : γ → Bool) {l₁ : List γ} (l₂ : List γ)
    (h : l₁.find? p = none) : (l₁ ++ l₂).find? p = l₂.find? p := by
  induction l₁ with
  | nil => rfl
  | cons x xs ih =>
    by_cases hx : p x = true
    · rw [List.find?_cons_of_pos _ hx] at h
      exact absurd h (by simp)
    · rw [List.find?_cons_of_neg _ hx] at h
      rw [List.cons_append, List.find?_cons_of_neg _ hx]
      exact ih h

theorem find?_append_some {γ : Type} (p : γ → Bool) {l₁ : List γ} (l₂ : List γ) {j : γ}
    (h : l₁.find? p = some j) : (l₁ ++ l₂).find? p = some j := by
  induction l₁ with
  | nil => exact absurd h (by simp)
  | cons x xs ih =>
    by_cases hx : p x = true
    · rw [List.find?_cons_of_pos _ hx] at h
      rw [List.cons_append, List.find?_cons_of_pos _ hx]
      exact h
    · rw [List.find?_cons_of_neg _ hx] at h
      rw [List.cons_append, List.find?_cons_of_neg _ hx]
      exact ih h

theorem assembleGo_lookup {α : Type} (readT : String → Except TileIOError α)
    (infos : List ImageInfo) (s₀ : ImageSet α)
    (hok : ∀ i ∈ infos, ∃ a, readT i.full_path = Except.ok a) :
    ∃ s, assembleGo readT infos s₀ = Except.ok s ∧ ∀ c z,
      dictGet2 s c z =
        (infos.reverse.find? (fun i => decide (i.channel = c) && decide (i.z_layer = z))).elim
          (dictGet2 s₀ c z) (fun i => (readT i.full_path).toOption) := by
  induction infos generalizing s₀ with
  | nil =>
    refine ⟨s₀, rfl, ?_⟩
    intro c z
    rfl
  | cons i rest ih =>
    rcases hok i (List.mem_cons_self i rest) with ⟨a, ha⟩
    rcases ih (assembleStep s₀ i a) (fun u hu => hok u (List.mem_cons_of_mem i hu)) with
      ⟨s, hs, hlook⟩
    refine ⟨s, ?_, ?_⟩
    · rw [assembleGo, ha]
      exact hs
    · intro c z
      rw [hlook c z, List.reverse_cons]
      rcases hfr : rest.reverse.find?
          (fun u => decide (u.channel = c) && decide (u.z_layer = z)) with _ | j
      · rw [hfr, Option.elim_none, find?_append_none _ [i] hfr]
        by_cases hp : i.channel = c ∧ i.z_layer = z
        · have hpt : (decide (i.channel = c) && decide (i.z_layer = z)) = true := by
            simp [hp.1, hp.2]
          rw [@List.find?_cons_of_pos ImageInfo
            (fun u => decide (u.channel = c) && decide (u.z_layer = z)) i [] hpt,
            Option.elim_some]
          rw [dictGet2_assembleStep, if_pos ⟨hp.1.symm, hp.2.symm⟩, ha]
          rfl
        · have hpf : ¬ ((decide (i.channel = c) && decide (i.z_layer = z)) = true) := by
            simp only [Bool.and_eq_true, decide_eq_true_eq]
            exact hp
          rw [@List.find?_cons_of_neg ImageInfo
            (fun u => decide (u.channel = c) && decide (u.z_layer = z)) i [] hpf]
          rw [dictGet2_assembleStep,
            if_neg (fun h : c = i.channel ∧ z = i.z_layer => hp ⟨h.1.symm, h.2.symm⟩)]
          rfl
      · rw [hfr, Option.elim_some, find?_append_some _ [i] hfr, Option.elim_some]

/-- C4: when every tile read succeeds, assembly succeeds and the resulting
Image Set holds exactly the descriptors' (channel, z-layer) pairs as keys; a
key collision stores the read of the later descriptor in list order
(last-write-wins), with no error raised. -/
theorem get_segmentation_images_keys {α : Type} (readT : String → Except TileIOError α)
    (infos : List ImageInfo)
    (hok : ∀ i ∈ infos, ∃ a, readT i.full_path = Except.ok a) :
    ∃ s, get_segmentation_images readT infos = Except.ok s ∧
      (∀ c z, dictGet2 s c z =
        (infos.reverse.find? (fun i => decide (i.channel = c) && decide (i.z_layer = z))).elim
          none (fun i => (readT i.full_path).toOption)) ∧
      (∀ c z, (∃ a, dictGet2 s c z = some a) ↔ ∃ i ∈ infos, i.channel = c ∧ i.z_layer = z) := by
  rcases assembleGo_lookup readT infos [] hok with ⟨s, hs, hlook⟩
  have hlook' : ∀ c z, dictGet2 s c z =
      (infos.reverse.find? (fun i => decide (i.channel = c) && decide (i.z_layer = z))).elim
        none (fun i => (readT i.full_path).toOption) := by
    intro c z
    rw [hlook c z]
    rcases hfr : infos.reverse.find?
        (fun u => decide (u.channel = c) && decide (u.z_layer = z)) with _ | j
    · rfl
    · rfl
  refine ⟨s, hs, hlook', ?_⟩
  intro c z
  rw [hlook' c z]
  rcases hfr : infos.reverse.find?
      (fun u => decide (u.channel = c) && decide (u.z_layer = z)) with _ | j
  · rw [hfr, Option.elim_none]
    constructor
    · rintro ⟨a, ha⟩
      exact absurd ha (by simp)
    · rintro ⟨i, hi, h1, h2⟩
      have : i ∈ infos.reverse := List.mem_reverse.mpr hi
      have hnone := List.find?_eq_none.mp hfr i this
      simp [h1, h2] at hnone
  · rw [hfr, Option.elim_some]
    have hj := List.find?_some hfr
    have hjm : j ∈ infos := List.mem_reverse.mp (List.mem_of_find?_eq_some hfr)
    simp only [Bool.and_eq_true, decide_eq_true_eq] at hj
    rcases hok j hjm with ⟨a, ha⟩
    constructor
    · intro _
      exact ⟨j, hjm, hj.1, hj.2⟩
    · intro _
      exact ⟨a, by rw [ha]; rfl⟩

/-- C4 witness: two descriptors colliding on ("A", 0) with different paths;
the assembled set stores the read of the later path, with no error. -/
theorem get_segmentation_images_keys_witness :
    ∃ s, get_segmentation_images (fun p => Except.ok p)
        [⟨"A", 0, "p1"⟩, ⟨"A", 0, "p2"⟩] = Except.ok s ∧
      dictGet2 s "A" 0 = some "p2" := by
  obtain ⟨s, hs, hlook, _⟩ := get_segmentation_images_keys (fun p => Except.ok p)
    [⟨"A", 0, "p1"⟩, ⟨"A", 0, "p2"⟩] (fun i _ => ⟨i.full_path, rfl⟩)
  refine ⟨s, hs, ?_⟩
  rw [hlook "A" 0]
  rfl

/-- C10: `as_stack` (default call) looks up every channel at every z-layer of
the union `z_levels`, so it raises a `KeyError` exactly when some channel lacks
a z-layer that some other channel has, and returns a stacked array exactly when
every channel's z-layer set equals the union — even though the `ImageSet`
container itself allows the per-channel z-layer sets to differ. -/
theorem as_stack_key_behavior {α : Type} (s : ImageSet α) :
    ((∃ r, ImageSet.as_stack s none = Except.ok r) ↔
      ∀ p ∈ s, ∀ z ∈ ImageSet.z_levels s, ∃ a, dictGet p.2 z = some a) ∧
    ((∃ e, ImageSet.as_stack s none = Except.error e) ↔
      ∃ p ∈ s, ∃ z ∈ ImageSet.z_levels s, dictGet p.2 z = none) ∧
    (∀ z : ℤ, z ∈ ImageSet.z_levels s ↔ ∃ p ∈ s, z ∈ p.2.map Prod.fst) := by
  have hok : (∃ r, ImageSet.as_stack s none = Except.ok r) ↔
      ∀ p ∈ s, ∀ z ∈ ImageSet.z_levels s, ∃ a, dictGet p.2 z = some a := by
    rw [ImageSet.as_stack, mapE_ok_iff]
    constructor
    · intro h p hp z hz
      have hzs : z ∈ (ImageSet.z_levels s).sort (· ≤ ·) := (Finset.mem_sort _).mpr hz
      rcases (mapE_ok_iff _ s).mp (h z hzs) p hp with ⟨a, ha⟩
      rcases hget : dictGet p.2 z with _ | a'
      · rw [getLayer, hget] at ha; exact absurd ha (by simp)
      · exact ⟨a', rfl⟩
    · intro h z hz
      refine (mapE_ok_iff _ s).mpr ?_
      intro p hp
      rcases h p hp z ((Finset.mem_sort _).mp hz) with ⟨a, ha⟩
      exact ⟨a, by rw [getLayer, ha]⟩
  refine ⟨hok, ?_, mem_z_levels s⟩
  constructor
  · rintro ⟨e, he⟩
    by_contra hc
    push_neg at hc
    have : ∀ p ∈ s, ∀ z ∈ ImageSet.z_levels s, ∃ a, dictGet p.2 z = some a := by
      intro p hp z hz
      rcases hget : dictGet p.2 z with _ | a
      · exact absurd hget (hc p hp z hz)
      · exact ⟨a, rfl⟩
    rcases hok.mpr this with ⟨r, hr⟩
    rw [hr] at he
    exact absurd he (by simp)
  · rintro ⟨p, hp, z, hz, hnone⟩
    rcases h : ImageSet.as_stack s none with e | r
    · exact ⟨e, rfl⟩
    · exfalso
      rcases hok.mp ⟨r, h⟩ p hp z hz with ⟨a, ha⟩
      rw [hnone] at ha
      exact absurd ha (by simp)

/-! ## Python tuple comparison, `min` and `max` over scale pairs -/

/-- Strict lexicographic order on pairs of floats, as Python compares
2-tuples. -/
def lexLt (a b : ℚ × ℚ) : Prop := a.1 < b.1 ∨ (a.1 = b.1 ∧ a.2 < b.2)

/-- Boolean form of `lexLt`, used inside the executable `min`/`max` folds. -/
def lexLtB (a b : ℚ × ℚ) : Bool :=
  decide (a.1 < b.1) || (decide (a.1 = b.1) && decide (a.2 < b.2))

theorem lexLtB_eq_true_iff {a b : ℚ × ℚ} : lexLtB a b = true ↔ lexLt a b := by
  simp [lexLtB, lexLt]

theorem lexLtB_eq_false_iff {a b : ℚ × ℚ} : lexLtB a b = false ↔ ¬ lexLt a b := by
  rw [← lexLtB_eq_true_iff]
  cases h : lexLtB a b <;> simp

theorem lexLt_irrefl (a : ℚ × ℚ) : ¬ lexLt a a := by
  rintro (h | ⟨_, h⟩) <;> exact lt_irrefl _ h

theorem lexLt_trans {a b c : ℚ × ℚ} (h1 : lexLt a b) (h2 : lexLt b c) : lexLt a c := by
  rcases h1 with h1 | ⟨h1e, h1l⟩ <;> rcases h2 with h2 | ⟨h2e, h2l⟩
  · exact Or.inl (lt_trans h1 h2)
  · exact Or.inl (h2e ▸ h1)
  · exact Or.inl (h1e ▸ h2)
  · exact Or.inr ⟨h1e.trans h2e, lt_trans h1l h2l⟩

theorem lexLt_antisymm {a b : ℚ × ℚ} (h1 : ¬ lexLt a b) (h2 : ¬ lexLt b a) : a = b := by
  rw [lexLt, not_or] at h1 h2
  have he : a.1 = b.1 := le_antisymm (not_lt.mp h2.1) (not_lt.mp h1.1)
  have ha2 : ¬ a.2 < b.2 := fun hl => h1.2 ⟨he, hl⟩
  have hb2 : ¬ b.2 < a.2 := fun hl => h2.2 ⟨he.symm, hl⟩
  exact Prod.ext he (le_antisymm (not_lt.mp hb2) (not_lt.mp ha2))

theorem lexLt_total (a b : ℚ × ℚ) : lexLt a b ∨ a = b ∨ lexLt b a := by
  rcases lt_trichotomy a.1 b.1 with h | h | h
  · exact Or.inl (Or.inl h)
  · rcases lt_trichotomy a.2 b.2 with h2 | h2 | h2
    · exact Or.inl (Or.inr ⟨h, h2⟩)
    · exact Or.inr (Or.inl (Prod.ext h h2))
    · exact Or.inr (Or.inr (Or.inr ⟨h.symm, h2⟩))
  · exact Or.inr (Or.inr (Or.inl h))

theorem lexLt_of_lt_of_nlt {a b c : ℚ × ℚ} (h1 : lexLt a b) (h2 : ¬ lexLt c b) :
    lexLt a c := by
  rcases lexLt_total b c with h | h | h
  · exact lexLt_trans h1 h
  · exact h ▸ h1
  · exact absurd h h2

/-- Python `min` over a nonempty list of 2-tuples (lexicographic). -/
def pyMin : List (ℚ × ℚ) → Option (ℚ × ℚ)
  | [] => none
  | x :: xs => some (xs.foldl (fun m y => if lexLtB y m then y else m) x)

/-- Python `max` over a nonempty list of 2-tuples (lexicographic). -/
def pyMax : List (ℚ × ℚ) → Option (ℚ × ℚ)
  | [] => none
  | x :: xs => some (xs.foldl (fun m y => if lexLtB m y then y else m) x)

theorem foldMin_mem (x : ℚ × ℚ) (xs : List (ℚ × ℚ)) :
    xs.foldl (fun m y => if lexLtB y m then y else m) x = x ∨
      xs.foldl (fun m y => if lexLtB y m then y else m) x ∈ xs := by
  induction xs generalizing x with
  | nil => exact Or.inl rfl
  | cons z zs ih =>
    rw [List.foldl_cons]
    rcases ih (if lexLtB z x then z else x) with h | h
    · rw [h]
      by_cases hz : lexLtB z x = true
      · rw [if_pos hz]
        exact Or.inr (List.mem_cons_self z zs)
      · rw [if_neg hz]
        exact Or.inl rfl
    · exact Or.inr (List.mem_cons_of_mem z h)

theorem foldMin_le (x : ℚ × ℚ) (xs : List (ℚ × ℚ)) :
    ∀ y, (y = x ∨ y ∈ xs) →
      ¬ lexLt y (xs.foldl (fun m y => if lexLtB y m then y else m) x) := by
  induction xs generalizing x with
  | nil =>
    rintro y (rfl | hy)
    · exact lexLt_irrefl y
    · simp at hy
  | cons z zs ih =>
    intro y hy
    rw [List.foldl_cons]
    have hxz : ¬ lexLt x (if lexLtB z x then z else x) := by
      by_cases hz : lexLtB z x = true
      · rw [if_pos hz]
        intro hlt
        exact absurd (lexLt_trans (lexLtB_eq_true_iff.mp hz) hlt)
          (lexLt_irrefl _)
      · rw [if_neg hz]
        exact lexLt_irrefl x
    have hzz : ¬ lexLt z (if lexLtB z x then z else x) := by
      by_cases hz : lexLtB z x = true
      · rw [if_pos hz]
        exact lexLt_irrefl z
      · rw [if_neg hz]
        exact lexLtB_eq_false_iff.mp (by revert hz; cases lexLtB z x <;> simp)
    have hM : ¬ lexLt (if lexLtB z x then z else x)
        (zs.foldl (fun m y => if lexLtB y m then y else m)
          (if lexLtB z x then z else x)) :=
      ih _ _ (Or.inl rfl)
    rcases hy with rfl | hy
    · intro hlt
      exact hxz (lexLt_of_lt_of_nlt hlt hM)
    · rcases List.mem_cons.mp hy with rfl | hy'
      · intro hlt
        exact hzz (lexLt_of_lt_of_nlt hlt hM)
      · exact ih _ y (Or.inr hy')

theorem foldMax_mem (x : ℚ × ℚ) (xs : List (ℚ × ℚ)) :
    xs.foldl (fun m y => if lexLtB m y then y else m) x = x ∨
      xs.foldl (fun m y => if lexLtB m y then y else m) x ∈ xs := by
  induction xs generalizing x with
  | nil => exact Or.inl rfl
  | cons z zs ih =>
    rw [List.foldl_cons]
    rcases ih (if lexLtB x z then z else x) with h | h
    · rw [h]
      by_cases hz : lexLtB x z = true
      · rw [if_pos hz]
        exact Or.inr (List.mem_cons_self z zs)
      · rw [if_neg hz]
        exact Or.inl rfl
    · exact Or.inr (List.mem_cons_of_mem z h)

theorem foldMax_ge (x : ℚ × ℚ) (xs : List (ℚ × ℚ)) :
    ∀ y, (y = x ∨ y ∈ xs) →
      ¬ lexLt (xs.foldl (fun m y => if lexLtB m y then y else m) x) y := by
  induction xs generalizing x with
  | nil =>
    rintro y (rfl | hy)
    · exact lexLt_irrefl y
    · simp at hy
  | cons z zs ih =>
    intro y hy
    rw [List.foldl_cons]
    have hxz : ¬ lexLt (if lexLtB x z then z else x) x := by
      by_cases hz : lexLtB x z = true
      · rw [if_pos hz]
        intro hlt
        exact absurd (lexLt_trans hlt (lexLtB_eq_true_iff.mp hz)) (lexLt_irrefl _)
      · rw [if_neg hz]
        exact lexLt_irrefl x
    have hzz : ¬ lexLt (if lexLtB x z then z else x) z := by
      by_cases hz : lexLtB x z = true
      · rw [if_pos hz]
        exact lexLt_irrefl z
      · rw [if_neg hz]
        exact lexLtB_eq_false_iff.mp (by revert hz; cases lexLtB x z <;> simp)
    have hM : ¬ lexLt
        (zs.foldl (fun m y => if lexLtB m y then y else m)
          (if lexLtB x z then z else x))
        (if lexLtB x z then z else x) :=
      ih _ _ (Or.inl rfl)
    rcases hy with rfl | hy
    · intro hlt
      exact hM (lexLt_of_lt_of_nlt hlt hxz)
    · rcases List.mem_cons.mp hy with rfl | hy'
      · intro hlt
        exact hM (lexLt_of_lt_of_nlt hlt hzz)
      · exact ih _ y (Or.inr hy')

theorem pyMin_eq_pyMax_iff (x : ℚ × ℚ) (xs : List (ℚ × ℚ)) :
    pyMin (x :: xs) = pyMax (x :: xs) ↔ ∀ y ∈ x :: xs, y = x := by
  constructor
  · intro h y hy
    rw [pyMin, pyMax, Option.some_inj] at h
    have hmem : y = x ∨ y ∈ xs := by
      rcases List.mem_cons.mp hy with rfl | hy' <;> [exact Or.inl rfl; exact Or.inr hy']
    have hle := foldMin_le x xs y hmem
    have hge := foldMax_ge x xs y hmem
    rw [← h] at hge
    have hy_eq := lexLt_antisymm hge hle
    have hge_x := foldMax_ge x xs x (Or.inl rfl)
    rw [← h] at hge_x
    have hx_eq := lexLt_antisymm hge_x (foldMin_le x xs x (Or.inl rfl))
    exact hy_eq.symm.trans hx_eq
  · intro h
    have hmin : xs.foldl (fun m y => if lexLtB y m then y else m) x = x := by
      have : ∀ ys : List (ℚ × ℚ), (∀ y ∈ ys, y = x) →
          ys.foldl (fun m y => if lexLtB y m then y else m) x = x := by
        intro ys
        induction ys with
        | nil => intro _; rfl
        | cons z zs ih =>
          intro hz
          rw [List.foldl_cons, hz z (List.mem_cons_self z zs),
            if_neg (by simp only [lexLtB_eq_true_iff]; exact lexLt_irrefl x)]
          exact ih (fun u hu => hz u (List.mem_cons_of_mem z hu))
      exact this xs (fun u hu => h u (List.mem_cons_of_mem x hu))
    have hmax : xs.foldl (fun m y => if lexLtB m y then y else m) x = x := by
      have : ∀ ys : List (ℚ × ℚ), (∀ y ∈ ys, y = x) →
          ys.foldl (fun m y => if lexLtB m y then y else m) x = x := by
        intro ys
        induction ys with
        | nil => intro _; rfl
        | cons z zs ih =>
          intro hz
          rw [List.foldl_cons, hz z (List.mem_cons_self z zs),
            if_neg (by simp only [lexLtB_eq_true_iff]; exact lexLt_irrefl x)]
          exact ih (fun u hu => hz u (List.mem_cons_of_mem z hu))
      exact this xs (fun u hu => h u (List.mem_cons_of_mem x hu))
    rw [pyMin, pyMax, hmin, hmax]

/-! ## Prepared Image Builder (`get_prepared_images`) -/

/-- One entry of `task.task_input_data`.  The `SegTask` class and
`create_filter_by_sequence` live outside `src/`; modelled from the spec:
`image_preprocessing` stands for the batch callable
`create_filter_by_sequence(input_info.image_preprocessing)` — per §6 an
ordered-sequence-in, ordered-sequence-out transform. -/
structure TaskInput (α : Type) where
  image_channel : String
  image_preprocessing : List α → List α

/-- The consumed part of a segmentation task.  Modelled from the spec: the
`SegTask` class is outside `src/`; §3 gives it an identifier, a set of
requested z-layers and an ordered input list. -/
structure SegTask (α : Type) where
  task_id : ℕ
  z_layers : Finset ℤ
  task_input_data : List (TaskInput α)

/-- The exceptions `get_prepared_images` can raise, one constructor per
`raise`-site / builtin error:
`keyError c` is `KeyError` from `images[channel]` on a missing channel;
`emptyIntersection c id` is the
`ValueError('Invalid experiment: no "c" input images found for the task id')`;
`zeroDivision` is `ZeroDivisionError` from a zero filtered dimension;
`emptyScaleSeq` is `min()`'s `ValueError` on an empty scale list;
`scaleMismatch` is the `ValueError('Invalid preprocessing scale: input images
for segmentation after postprocessing should have same sizes')`;
`indexError` is `IndexError` from `filtered_images[i]`;
`noInputImages id` is the
`ValueError('Invalid experiment: no input images found for the task id')`. -/
inductive PrepErr : Type
  | keyError (channel : String)
  | emptyIntersection (channel : String) (taskId : ℕ)
  | zeroDivision
  | emptyScaleSeq
  | scaleMismatch
  | indexError
  | noInputImages (taskId : ℕ)
  deriving DecidableEq

/-- Embedding of `sorted([z for z in images[channel] if z in task.z_layers])`. -/
def sortedTaskZ {α : Type} (task : SegTask α) (zstack : ZStack α) : List ℤ :=
  List.insertionSort (· ≤ ·)
    ((zstack.map Prod.fst).filter (fun z => decide (z ∈ task.z_layers)))

/-- Embedding of `[images[channel][z] for z in task_z]` — every `z` is a key of the stack,
so the lookups all succeed. -/
def batchImages {α : Type} (zstack : ZStack α) (zs : List ℤ) : List α :=
  zs.filterMap (fun z => dictGet zstack z)

/-- The ordered z-stack of source images one input descriptor selects:
`task_images = [images[channel][z] for z in task_z]`. -/
def channelBatch {α : Type} (task : SegTask α) (zstack : ZStack α) : List α :=
  batchImages zstack (sortedTaskZ task zstack)

/-- Embedding of `(im.shape[0] / cur_im.shape[0], im.shape[1] / cur_im.shape[1])`, with
float division modelled as exact division in `ℚ`. -/
def scalesOf {α : Type} (shape : α → ℕ × ℕ) (src filt : α) : ℚ × ℚ :=
  (((shape src).1 : ℚ) / ((shape filt).1 : ℚ),
   ((shape src).2 : ℚ) / ((shape filt).2 : ℚ))

/-- One iteration of the loop over `task.task_input_data`, acting on the state
`(cur_images, scale)`.  The source's local names map onto the helper
definitions: `task_z` is `sortedTaskZ task zstack`, `task_images` is
`channelBatch task zstack`, `filtered_images` is
`inp.image_preprocessing (channelBatch task zstack)`, and `cur_scale` is the
mapped list matched against `[]`/`c0 :: cs`. -/
def processInput {α : Type} (shape : α → ℕ × ℕ) (task : SegTask α)
    (images : ImageSet α) (st : ImageSet α × Option (ℚ × ℚ)) (inp : TaskInput α) :
    Except PrepErr (ImageSet α × Option (ℚ × ℚ)) :=
  match dictGet images inp.image_channel with
  | none => Except.error (PrepErr.keyError inp.image_channel)
  | some zstack =>
    if (sortedTaskZ task zstack).length = 0 then
      Except.error (PrepErr.emptyIntersection inp.image_channel task.task_id)
    else if ((channelBatch task zstack).zip
        (inp.image_preprocessing (channelBatch task zstack))).any
        (fun pr => decide ((shape pr.2).1 = 0) || decide ((shape pr.2).2 = 0)) then
      Except.error PrepErr.zeroDivision
    else
      match ((channelBatch task zstack).zip
          (inp.image_preprocessing (channelBatch task zstack))).map
          (fun pr => scalesOf shape pr.1 pr.2) with
      | [] => Except.error PrepErr.emptyScaleSeq
      | c0 :: cs =>
        if pyMin (c0 :: cs) ≠ pyMax (c0 :: cs) ∨ (st.2 ≠ none ∧ st.2 ≠ some c0) then
          Except.error PrepErr.scaleMismatch
        else if (inp.image_preprocessing (channelBatch task zstack)).length <
            (sortedTaskZ task zstack).length then
          Except.error PrepErr.indexError
        else
          Except.ok
            (dictSet st.1 inp.image_channel
              (((sortedTaskZ task zstack).zip
                  (inp.image_preprocessing (channelBatch task zstack))).foldl
                (fun d pr => dictSet d pr.1 pr.2) []),
             some c0)

/-- The loop `for input_info in task.task_input_data`, threading the state;
a raised exception aborts the remaining iterations. -/
def prepGo {α : Type} (shape : α → ℕ × ℕ) (task : SegTask α) (images : ImageSet α) :
    List (TaskInput α) → ImageSet α × Option (ℚ × ℚ) →
      Except PrepErr (ImageSet α × Option (ℚ × ℚ))
  | [], st => Except.ok st
  | inp :: rest, st =>
    match processInput shape task images st inp with
    | Except.error e => Except.error e
    | Except.ok st' => prepGo shape task images rest st'

/-- Embedding of `get_prepared_images(task, images)`. -/
def get_prepared_images {α : Type} (shape : α → ℕ × ℕ) (task : SegTask α)
    (images : ImageSet α) : Except PrepErr (ImageSet α × (ℚ × ℚ)) :=
  match prepGo shape task images task.task_input_data ([], none) with
  | Except.error e => Except.error e
  | Except.ok (_, none) => Except.error (PrepErr.noInputImages task.task_id)
  | Except.ok (cur, some s) => Except.ok (cur, s)

/-! ## Specification views of one loop iteration -/

/-- The list `cur_scale` of per-(source, filtered) scale pairs one input
descriptor produces (`[]` when its channel is absent). -/
def inpScales {α : Type} (shape : α → ℕ × ℕ) (task : SegTask α) (images : ImageSet α)
    (inp : TaskInput α) : List (ℚ × ℚ) :=
  match dictGet images inp.image_channel with
  | none => []
  | some zstack =>
    ((channelBatch task zstack).zip
        (inp.image_preprocessing (channelBatch task zstack))).map
      (fun pr => scalesOf shape pr.1 pr.2)

/-- All scale pairs produced across the task's inputs, in processing order. -/
def allScales {α : Type} (shape : α → ℕ × ℕ) (task : SegTask α)
    (images : ImageSet α) : List (ℚ × ℚ) :=
  (task.task_input_data.map (inpScales shape task images)).flatten

/-- The carried `scale` state as a list (empty for `None`). -/
def optScale : Option (ℚ × ℚ) → List (ℚ × ℚ)
  | none => []
  | some t => [t]

/-- All members of the list are equal to each other. -/
def Uniform (l : List (ℚ × ℚ)) : Prop := ∀ p ∈ l, ∀ q ∈ l, p = q

theorem uniform_iff_of_mem {l : List (ℚ × ℚ)} {c : ℚ × ℚ} (hc : c ∈ l) :
    Uniform l ↔ ∀ p ∈ l, p = c := by
  constructor
  · intro h p hp
    exact h p hp c hc
  · intro h p hp q hq
    exact (h p hp).trans (h q hq).symm

theorem mem_sortedTaskZ {α : Type} {task : SegTask α} {zstack : ZStack α} {z : ℤ} :
    z ∈ sortedTaskZ task zstack ↔ z ∈ zstack.map Prod.fst ∧ z ∈ task.z_layers := by
  rw [sortedTaskZ, (List.perm_insertionSort (· ≤ ·) _).mem_iff, List.mem_filter]
  simp

theorem batchImages_length {α : Type} {zstack : ZStack α} {l : List ℤ}
    (h : ∀ z ∈ l, ∃ a, dictGet zstack z = some a) :
    (batchImages zstack l).length = l.length := by
  induction l with
  | nil => rfl
  | cons w ws ih =>
    rcases h w (List.mem_cons_self w ws) with ⟨a, ha⟩
    rw [batchImages, List.filterMap_cons, ha]
    simpa [batchImages] using ih (fun z hz => h z (List.mem_cons_of_mem w hz))

theorem sortedTaskZ_keys {α : Type} {task : SegTask α} {zstack : ZStack α} :
    ∀ z ∈ sortedTaskZ task zstack, ∃ a, dictGet zstack z = some a := by
  intro z hz
  exact dictGet_mem_keys (mem_sortedTaskZ.mp hz).1

theorem channelBatch_length {α : Type} (task : SegTask α) (zstack : ZStack α) :
    (channelBatch task zstack).length = (sortedTaskZ task zstack).length :=
  batchImages_length sortedTaskZ_keys

theorem prepGo_append {α : Type} (shape : α → ℕ × ℕ) (task : SegTask α)
    (images : ImageSet α) (l₁ l₂ : List (TaskInput α)) (st : ImageSet α × Option (ℚ × ℚ)) :
    prepGo shape task images (l₁ ++ l₂) st =
      match prepGo shape task images l₁ st with
      | Except.error e => Except.error e
      | Except.ok st' => prepGo shape task images l₂ st' := by
  induction l₁ generalizing st with
  | nil => rfl
  | cons inp rest ih =>
    rw [List.cons_append, prepGo, prepGo]
    rcases h : processInput shape task images st inp with e | st'
    · rfl
    · exact ih st'

/-- Lookup after the Python dict-comprehension
`{z: filtered_images[i] for i, z in enumerate(task_z)}` (realised as a fold of
assignments over `task_z.zip filtered`), for keys drawn by `filterMap`. -/
theorem restrict_fold_lookup {α : Type} (f : ℤ → Option α) (l : List ℤ)
    (h : ∀ z ∈ l, ∃ a, f z = some a) (d₀ : ZStack α) (z : ℤ) :
    dictGet ((l.zip (l.filterMap f)).foldl (fun d pr => dictSet d pr.1 pr.2) d₀) z =
      if z ∈ l then f z else dictGet d₀ z := by
  induction l generalizing d₀ with
  | nil => simp
  | cons w ws ih =>
    rcases h w (List.mem_cons_self w ws) with ⟨a, ha⟩
    rw [List.filterMap_cons, ha, List.zip_cons_cons, List.foldl_cons]
    rw [ih (fun u hu => h u (List.mem_cons_of_mem w hu))]
    by_cases hz : z ∈ ws
    · rw [if_pos hz, if_pos (List.mem_cons_of_mem w hz)]
    · rw [if_neg hz, dictGet_dictSet]
      by_cases hw : z = w
      · subst hw
        rw [if_pos rfl, if_pos (List.mem_cons_self z ws), ha]
      · rw [if_neg hw, if_neg (by
          intro hc
          rcases List.mem_cons.mp hc with h1 | h1
          · exact hw h1
          · exact hz h1)]

theorem inpScales_eq {α : Type} {shape : α → ℕ × ℕ} {task : SegTask α}
    {images : ImageSet α} {inp : TaskInput α} {zstack : ZStack α}
    (hch : dictGet images inp.image_channel = some zstack) :
    inpScales shape task images inp =
      ((channelBatch task zstack).zip
          (inp.image_preprocessing (channelBatch task zstack))).map
        (fun pr => scalesOf shape pr.1 pr.2) := by
  unfold inpScales
  rw [hch]

theorem processInput_step {α : Type} (shape : α → ℕ × ℕ) (task : SegTask α)
    (images : ImageSet α) (cur : ImageSet α) (s0 : Option (ℚ × ℚ)) (inp : TaskInput α)
    {zstack : ZStack α}
    (hch : dictGet images inp.image_channel = some zstack)
    (hnz : sortedTaskZ task zstack ≠ [])
    (hlen : (inp.image_preprocessing (channelBatch task zstack)).length =
      (channelBatch task zstack).length)
    (hpos : ∀ b ∈ inp.image_preprocessing (channelBatch task zstack),
      (shape b).1 ≠ 0 ∧ (shape b).2 ≠ 0) :
    ∃ c0 cs, inpScales shape task images inp = c0 :: cs ∧
      ((∀ p ∈ inpScales shape task images inp, p = c0) → (s0 = none ∨ s0 = some c0) →
        processInput shape task images (cur, s0) inp = Except.ok
          (dictSet cur inp.image_channel
            (((sortedTaskZ task zstack).zip
                (inp.image_preprocessing (channelBatch task zstack))).foldl
              (fun d pr => dictSet d pr.1 pr.2) []), some c0)) ∧
      ((¬ (∀ p ∈ inpScales shape task images inp, p = c0) ∨
          (s0 ≠ none ∧ s0 ≠ some c0)) →
        processInput shape task images (cur, s0) inp =
          Except.error PrepErr.scaleMismatch) := by
  have hblen := channelBatch_length task zstack
  have hbatch_ne : channelBatch task zstack ≠ [] := by
    intro hc
    apply hnz
    apply List.length_eq_zero.mp
    rw [← hblen, hc]
    rfl
  have hpairs_len : (((channelBatch task zstack).zip
      (inp.image_preprocessing (channelBatch task zstack)))).length =
      (channelBatch task zstack).length := by
    rw [List.length_zip, hlen, min_self]
  have hscales_ne : inpScales shape task images inp ≠ [] := by
    rw [inpScales_eq hch]
    intro hc
    have := congrArg List.length hc
    rw [List.length_map, hpairs_len] at this
    exact hbatch_ne (List.length_eq_zero.mp this)
  rcases List.exists_cons_of_ne_nil hscales_ne with ⟨c0, cs, hsc⟩
  have hsc' : ((channelBatch task zstack).zip
      (inp.image_preprocessing (channelBatch task zstack))).map
      (fun pr => scalesOf shape pr.1 pr.2) = c0 :: cs := by
    rw [← inpScales_eq hch, hsc]
  have hany : (((channelBatch task zstack).zip
      (inp.image_preprocessing (channelBatch task zstack))).any
      (fun pr => decide ((shape pr.2).1 = 0) || decide ((shape pr.2).2 = 0))) = false := by
    rw [List.any_eq_false]
    rintro ⟨src, filt⟩ hmem
    have hf := (List.of_mem_zip hmem).2
    rcases hpos filt hf with ⟨h1, h2⟩
    simp [h1, h2]
  have h0 : ¬ (sortedTaskZ task zstack).length = 0 := by
    rw [List.length_eq_zero]
    exact hnz
  have hidx : ¬ ((inp.image_preprocessing (channelBatch task zstack)).length <
      (sortedTaskZ task zstack).length) := by
    rw [hlen, hblen]
    exact lt_irrefl _
  refine ⟨c0, cs, hsc, ?_, ?_⟩
  · intro hall hs0
    unfold processInput
    simp only [hch]
    rw [if_neg h0, if_neg (by rw [hany]; exact Bool.false_ne_true)]
    simp only [hsc']
    rw [if_neg ?hcnd, if_neg hidx]
    case hcnd =>
      rw [not_or]
      constructor
      · rw [not_not, pyMin_eq_pyMax_iff]
        intro y hy
        exact hall y (by rw [hsc]; exact hy)
      · rw [not_and_or]
        rcases hs0 with h | h
        · exact Or.inl (by rw [h]; simp)
        · exact Or.inr (by rw [h]; simp)
  · intro hbad
    unfold processInput
    simp only [hch]
    rw [if_neg h0, if_neg (by rw [hany]; exact Bool.false_ne_true)]
    simp only [hsc']
    rw [if_pos ?hcnd]
    case hcnd =>
      rcases hbad with h | h
      · refine Or.inl ?_
        rw [Ne, pyMin_eq_pyMax_iff]
        intro hc
        exact h (fun p hp => hc p (by rw [hsc] at hp; exact hp))
      · exact Or.inr h

theorem processInput_ok_inv {α : Type} {shape : α → ℕ × ℕ} {task : SegTask α}
    {images : ImageSet α} {cur : ImageSet α} {s0 : Option (ℚ × ℚ)} {inp : TaskInput α}
    {cur₁ : ImageSet α} {s1 : Option (ℚ × ℚ)}
    (h : processInput shape task images (cur, s0) inp = Except.ok (cur₁, s1)) :
    ∃ zstack c0 cs, dictGet images inp.image_channel = some zstack ∧
      inpScales shape task images inp = c0 :: cs ∧ s1 = some c0 ∧
      (∀ p ∈ inpScales shape task images inp, p = c0) ∧
      (s0 = none ∨ s0 = some c0) ∧
      (sortedTaskZ task zstack).length ≤
        (inp.image_preprocessing (channelBatch task zstack)).length ∧
      cur₁ = dictSet cur inp.image_channel
        (((sortedTaskZ task zstack).zip
            (inp.image_preprocessing (channelBatch task zstack))).foldl
          (fun d pr => dictSet d pr.1 pr.2) []) := by
  unfold processInput at h
  rcases hch : dictGet images inp.image_channel with _ | zstack
  · rw [hch] at h
    exact absurd h (by simp)
  simp only [hch] at h
  by_cases h0 : (sortedTaskZ task zstack).length = 0
  · rw [if_pos h0] at h
    exact absurd h (by simp)
  rw [if_neg h0] at h
  by_cases hany : (((channelBatch task zstack).zip
      (inp.image_preprocessing (channelBatch task zstack))).any
      (fun pr => decide ((shape pr.2).1 = 0) || decide ((shape pr.2).2 = 0))) = true
  · rw [if_pos hany] at h
    exact absurd h (by simp)
  rw [if_neg hany] at h
  rcases hsc : ((channelBatch task zstack).zip
      (inp.image_preprocessing (channelBatch task zstack))).map
      (fun pr => scalesOf shape pr.1 pr.2) with _ | ⟨c0, cs⟩
  · rw [hsc] at h
    exact absurd h (by simp)
  simp only [hsc] at h
  by_cases hcnd : pyMin (c0 :: cs) ≠ pyMax (c0 :: cs) ∨ (s0 ≠ none ∧ s0 ≠ some c0)
  · rw [if_pos hcnd] at h
    exact absurd h (by simp)
  rw [if_neg hcnd] at h
  by_cases hidx : (inp.image_preprocessing (channelBatch task zstack)).length <
      (sortedTaskZ task zstack).length
  · rw [if_pos hidx] at h
    exact absurd h (by simp)
  rw [if_neg hidx] at h
  rw [not_or, not_not, not_and_or, not_not, not_not] at hcnd
  simp only [Except.ok.injEq, Prod.mk.injEq] at h
  refine ⟨zstack, c0, cs, rfl, by rw [inpScales_eq hch, hsc], h.2.symm, ?_, ?_,
    not_lt.mp hidx, h.1.symm⟩
  · intro p hp
    rw [inpScales_eq hch, hsc] at hp
    exact (pyMin_eq_pyMax_iff c0 cs).mp hcnd.1 p hp
  · exact hcnd.2

theorem prepGo_ok_scales {α : Type} (shape : α → ℕ × ℕ) (task : SegTask α)
    (images : ImageSet α) :
    ∀ (l : List (TaskInput α)) (cur : ImageSet α) (s0 : Option (ℚ × ℚ))
      (st' : ImageSet α × Option (ℚ × ℚ)),
      prepGo shape task images l (cur, s0) = Except.ok st' →
      (∀ t, s0 = some t → st'.2 = some t) ∧
      (∀ inp ∈ l, ∀ p ∈ inpScales shape task images inp, some p = st'.2) := by
  intro l
  induction l with
  | nil =>
    intro cur s0 st' h
    simp only [prepGo, Except.ok.injEq] at h
    subst h
    exact ⟨fun t ht => ht, by simp⟩
  | cons inp rest ih =>
    intro cur s0 st' h
    rcases hpi : processInput shape task images (cur, s0) inp with e | st₁
    · rw [prepGo, hpi] at h
      exact absurd h (by simp)
    · rw [prepGo, hpi] at h
      obtain ⟨cur₁, s1⟩ := st₁
      rcases processInput_ok_inv hpi with ⟨zs, c0, cs, hch, hsc, hs1, hall, hs0c, _, hcur⟩
      rcases ih cur₁ s1 st' h with ⟨ih1, ih2⟩
      have hst2 : st'.2 = some c0 := ih1 c0 (by rw [hs1])
      refine ⟨?_, ?_⟩
      · intro t ht
        rw [ht] at hs0c
        rcases hs0c with hna | hsa
        · exact absurd hna (by simp)
        · have htc : t = c0 := Option.some_inj.mp hsa
          rw [hst2, htc]
      · intro u hu p hp
        rcases List.mem_cons.mp hu with rfl | hu'
        · rw [hst2, hall p hp]
        · exact ih2 u hu' p hp

theorem prepGo_mismatch_iff {α : Type} (shape : α → ℕ × ℕ) (task : SegTask α)
    (images : ImageSet α) :
    ∀ (l : List (TaskInput α)),
      (∀ inp ∈ l, ∃ zstack, dictGet images inp.image_channel = some zstack ∧
        sortedTaskZ task zstack ≠ [] ∧
        (inp.image_preprocessing (channelBatch task zstack)).length =
          (channelBatch task zstack).length ∧
        ∀ b ∈ inp.image_preprocessing (channelBatch task zstack),
          (shape b).1 ≠ 0 ∧ (shape b).2 ≠ 0) →
      ∀ (cur : ImageSet α) (s0 : Option (ℚ × ℚ)),
        (prepGo shape task images l (cur, s0) = Except.error PrepErr.scaleMismatch ↔
          ¬ Uniform (optScale s0 ++ (l.map (inpScales shape task images)).flatten)) ∧
        (∀ e, prepGo shape task images l (cur, s0) = Except.error e →
          e = PrepErr.scaleMismatch) := by
  intro l
  induction l with
  | nil =>
    intro _ cur s0
    refine ⟨⟨fun h => absurd h (by simp [prepGo]), fun h => ?_⟩,
      fun e he => absurd he (by simp [prepGo])⟩
    exfalso
    apply h
    intro p hp q hq
    rcases s0 with _ | t
    · simp [optScale] at hp
    · simp only [optScale, List.map_nil, List.flatten_nil, List.append_nil,
        List.mem_singleton] at hp hq
      rw [hp, hq]
  | cons inp rest ih =>
    intro hhyp cur s0
    rcases hhyp inp (List.mem_cons_self inp rest) with ⟨zs, hch, hnz, hlen, hpos⟩
    rcases processInput_step shape task images cur s0 inp hch hnz hlen hpos with
      ⟨c0, cs, hsc, hgood, hbad⟩
    have hc0mem : c0 ∈ inpScales shape task images inp := by
      rw [hsc]
      exact List.mem_cons_self _ _
    by_cases hAll : (∀ p ∈ inpScales shape task images inp, p = c0) ∧
        (s0 = none ∨ s0 = some c0)
    · have hstep := hgood hAll.1 hAll.2
      have hrw : prepGo shape task images (inp :: rest) (cur, s0) =
          prepGo shape task images rest
            (dictSet cur inp.image_channel
              (((sortedTaskZ task zs).zip
                  (inp.image_preprocessing (channelBatch task zs))).foldl
                (fun d pr => dictSet d pr.1 pr.2) []), some c0) := by
        rw [prepGo, hstep]
      rcases ih (fun u hu => hhyp u (List.mem_cons_of_mem inp hu))
          (dictSet cur inp.image_channel
            (((sortedTaskZ task zs).zip
                (inp.image_preprocessing (channelBatch task zs))).foldl
              (fun d pr => dictSet d pr.1 pr.2) [])) (some c0) with ⟨ih1, ih2⟩
      rw [hrw]
      have hequiv : Uniform (optScale (some c0) ++
          (rest.map (inpScales shape task images)).flatten) ↔
          Uniform (optScale s0 ++
            ((inp :: rest).map (inpScales shape task images)).flatten) := by
        have hc0A : c0 ∈ optScale (some c0) ++
            (rest.map (inpScales shape task images)).flatten := by
          simp [optScale]
        have hc0B : c0 ∈ optScale s0 ++
            ((inp :: rest).map (inpScales shape task images)).flatten := by
          rw [List.map_cons, List.flatten_cons]
          exact List.mem_append.mpr (Or.inr (List.mem_append.mpr (Or.inl hc0mem)))
        rw [uniform_iff_of_mem hc0A, uniform_iff_of_mem hc0B]
        constructor
        · intro hA p hp
          rcases List.mem_append.mp hp with hp1 | hp2
          · rcases hAll.2 with h | h
            · rw [h] at hp1
              simp [optScale] at hp1
            · rw [h] at hp1
              simp only [optScale, List.mem_singleton] at hp1
              exact hp1
          · rw [List.map_cons, List.flatten_cons] at hp2
            rcases List.mem_append.mp hp2 with hp3 | hp4
            · exact hAll.1 p hp3
            · exact hA p (List.mem_append.mpr (Or.inr hp4))
        · intro hB p hp
          rcases List.mem_append.mp hp with hp1 | hp2
          · simp only [optScale, List.mem_singleton] at hp1
            exact hp1
          · refine hB p ?_
            rw [List.map_cons, List.flatten_cons]
            exact List.mem_append.mpr (Or.inr (List.mem_append.mpr (Or.inr hp2)))
      exact ⟨ih1.trans (not_congr hequiv), ih2⟩
    · have hbad' : ¬ (∀ p ∈ inpScales shape task images inp, p = c0) ∨
          (s0 ≠ none ∧ s0 ≠ some c0) := by
        rcases not_and_or.mp hAll with h | h
        · exact Or.inl h
        · exact Or.inr (not_or.mp h)
      have hstep := hbad hbad'
      have hrw : prepGo shape task images (inp :: rest) (cur, s0) =
          Except.error PrepErr.scaleMismatch := by
        rw [prepGo, hstep]
      rw [hrw]
      have hc0B : c0 ∈ optScale s0 ++
          ((inp :: rest).map (inpScales shape task images)).flatten := by
        rw [List.map_cons, List.flatten_cons]
        exact List.mem_append.mpr (Or.inr (List.mem_append.mpr (Or.inl hc0mem)))
      refine ⟨⟨fun _ => ?_, fun _ => rfl⟩, fun e he => by
        injection he with h
        exact h.symm⟩
      intro hU
      rcases hbad' with h | h
      · push_neg at h
        rcases h with ⟨p, hp, hpne⟩
        apply hpne
        refine hU p ?_ c0 hc0B
        rw [List.map_cons, List.flatten_cons]
        exact List.mem_append.mpr (Or.inr (List.mem_append.mpr (Or.inl hp)))
      · rcases hs : s0 with _ | t
        · exact h.1 hs
        · have htB : t ∈ optScale s0 ++
              ((inp :: rest).map (inpScales shape task images)).flatten := by
            rw [hs]
            exact List.mem_append.mpr (Or.inl (List.mem_singleton.mpr rfl))
          have : t = c0 := hU t htB c0 hc0B
          exact h.2 (by rw [hs, this])

/-- C1: on every successful run the returned scale pair equals
`(source.height / filtered.height, source.width / filtered.width)` for every
(source, filtered) pair of every channel processed for the task; and whenever
every channel is processable (present channel, nonempty z-intersection,
length-preserving pipeline, no zero filtered dimension), the run fails with
the `"images should have same sizes"` scale-mismatch `ValueError` — returning
no Image Set — exactly when two of the produced per-image scale pairs differ
(within one channel's batch or across channels). -/
theorem get_prepared_images_scale_invariant {α : Type} (shape : α → ℕ × ℕ)
    (task : SegTask α) (images : ImageSet α) :
    (∀ out s, get_prepared_images shape task images = Except.ok (out, s) →
      ∀ inp ∈ task.task_input_data, ∀ p ∈ inpScales shape task images inp, p = s) ∧
    ((∀ inp ∈ task.task_input_data, ∃ zstack,
        dictGet images inp.image_channel = some zstack ∧
        sortedTaskZ task zstack ≠ [] ∧
        (inp.image_preprocessing (channelBatch task zstack)).length =
          (channelBatch task zstack).length ∧
        ∀ b ∈ inp.image_preprocessing (channelBatch task zstack),
          (shape b).1 ≠ 0 ∧ (shape b).2 ≠ 0) →
      (get_prepared_images shape task images = Except.error PrepErr.scaleMismatch ↔
        ¬ Uniform (allScales shape task images))) := by
  constructor
  · intro out s h inp hinp p hp
    rcases hpg : prepGo shape task images task.task_input_data ([], none) with e | ⟨cur, s1⟩
    · rw [get_prepared_images, hpg] at h
      exact absurd h (by simp)
    · rcases s1 with _ | s'
      · rw [get_prepared_images, hpg] at h
        exact absurd h (by simp)
      · rw [get_prepared_images, hpg] at h
        simp only [Except.ok.injEq, Prod.mk.injEq] at h
        rcases prepGo_ok_scales shape task images task.task_input_data [] none
            (cur, some s') hpg with ⟨_, hall⟩
        have := hall inp hinp p hp
        simp only [Option.some_inj] at this
        rw [this, h.2]
  · intro hhyp
    rcases prepGo_mismatch_iff shape task images task.task_input_data hhyp [] none with
      ⟨ih1, ih2⟩
    rcases hpg : prepGo shape task images task.task_input_data ([], none) with e | ⟨cur, s1⟩
    · have he := ih2 e hpg
      subst he
      rw [get_prepared_images, hpg]
      constructor
      · intro _
        have := ih1.mp hpg
        simpa [optScale, allScales] using this
      · intro _
        rfl
    · rw [get_prepared_images, hpg]
      have hnotm : ¬ (prepGo shape task images task.task_input_data ([], none) =
          Except.error PrepErr.scaleMismatch) := by
        rw [hpg]
        simp
      have hU : Uniform (allScales shape task images) := by
        have := (not_congr ih1).mp hnotm
        rw [not_not] at this
        simpa [optScale, allScales] using this
      rcases s1 with _ | s'
      · constructor
        · intro h
          exact absurd h (by simp)
        · intro h
          exact absurd hU h
      · constructor
        · intro h
          exact absurd h (by simp)
        · intro h
          exact absurd hU h

/-- Concrete two-channel Image Set: both channels hold a 2×2 array at z = 0. -/
def imagesC1 : ImageSet (ℕ × ℕ) := [("A", [(0, (2, 2))]), ("B", [(0, (2, 2))])]

/-- Concrete task: channel "A" with the identity pipeline, channel "B" with a
pipeline producing 1×1 arrays (scale 2 per axis). -/
def taskC1 : SegTask (ℕ × ℕ) :=
  ⟨3, {0}, [⟨"A", id⟩, ⟨"B", fun l => l.map (fun _ => (1, 1))⟩]⟩

/-- C1 witness: the two channels of `taskC1` produce scales (1,1) and (2,2),
so `get_prepared_images` fails with the scale-mismatch error. -/
theorem get_prepared_images_scale_invariant_witness :
    get_prepared_images (fun a => a) taskC1 imagesC1 =
      Except.error PrepErr.scaleMismatch := by
  refine ((get_prepared_images_scale_invariant (fun a => a) taskC1 imagesC1).2 ?_).mpr ?_
  · intro inp hinp
    rcases List.mem_cons.mp hinp with rfl | hinp'
    · exact ⟨[(0, (2, 2))], rfl, by decide, by decide, by decide⟩
    rcases List.mem_cons.mp hinp' with rfl | hinp''
    · exact ⟨[(0, (2, 2))], rfl, by decide, by decide, by decide⟩
    · simp at hinp''
  · intro hU
    have hlist : allScales (fun a : ℕ × ℕ => a) taskC1 imagesC1 =
        [scalesOf (fun a : ℕ × ℕ => a) (2, 2) (2, 2),
         scalesOf (fun a : ℕ × ℕ => a) (2, 2) (1, 1)] := rfl
    have hcontra := hU (scalesOf (fun a : ℕ × ℕ => a) (2, 2) (2, 2))
      (by rw [hlist]; exact List.mem_cons_self _ _)
      (scalesOf (fun a : ℕ × ℕ => a) (2, 2) (1, 1))
      (by rw [hlist]; exact List.mem_cons_of_mem _ (List.mem_cons_self _ _))
    rw [scalesOf, scalesOf, Prod.mk.injEq] at hcontra
    norm_num at hcontra

theorem dictGet_some_mem {κ : Type} [DecidableEq κ] {ν : Type} {l : List (κ × ν)}
    {k : κ} {v : ν} (h : dictGet l k = some v) : (k, v) ∈ l := by
  induction l with
  | nil => cases h
  | cons p rest ih =>
    rw [dictGet] at h
    by_cases hk : p.1 = k
    · rw [if_pos hk] at h
      have : p = (k, v) := Prod.ext hk (Option.some_inj.mp h)
      rw [← this]
      exact List.mem_cons_self p rest
    · rw [if_neg hk] at h
      exact List.mem_cons_of_mem p (ih h)

theorem dictSet_append {κ : Type} [DecidableEq κ] {ν : Type} {l : List (κ × ν)}
    {k : κ} (v : ν) (h : k ∉ l.map Prod.fst) : dictSet l k v = l ++ [(k, v)] := by
  induction l with
  | nil => rfl
  | cons p rest ih =>
    simp only [List.map_cons, List.mem_cons, not_or] at h
    rw [dictSet, if_neg (fun hc => h.1 hc.symm), List.cons_append]
    rw [ih h.2]

theorem foldl_dictSet_nodup {κ : Type} [DecidableEq κ] {ν : Type} :
    ∀ (ps : List (κ × ν)) (d₀ : List (κ × ν)),
      ((d₀ ++ ps).map Prod.fst).Nodup →
      ps.foldl (fun d pr => dictSet d pr.1 pr.2) d₀ = d₀ ++ ps := by
  intro ps
  induction ps with
  | nil =>
    intro d₀ _
    simp
  | cons pr rest ih =>
    intro d₀ hnd
    rw [List.foldl_cons]
    have hk : pr.1 ∉ d₀.map Prod.fst := by
      intro hc
      have h1 : pr.1 ∈ (d₀ ++ pr :: rest).map Prod.fst := by
        rw [List.map_append]
        exact List.mem_append.mpr (Or.inl hc)
      have h2 : ((d₀ ++ pr :: rest).map Prod.fst).Nodup := hnd
      rw [List.map_append, List.map_cons] at h2
      have := (List.nodup_append.mp h2).2.2
      exact this hc (List.mem_cons_self _ _)
    rw [dictSet_append pr.2 hk]
    have : (d₀ ++ [pr]) ++ rest = d₀ ++ pr :: rest := by simp
    rw [ih (d₀ ++ [pr]) (by rw [this]; exact hnd), this]

theorem sortedTaskZ_nodup {α : Type} {task : SegTask α} {zstack : ZStack α}
    (h : (zstack.map Prod.fst).Nodup) : (sortedTaskZ task zstack).Nodup := by
  rw [sortedTaskZ]
  exact ((List.perm_insertionSort (· ≤ ·) _).nodup_iff).mpr (List.Nodup.filter _ h)

theorem restrict_fold_keys {α : Type} {zs : List ℤ} (vals : List α)
    (hnd : zs.Nodup) (hlen : zs.length ≤ vals.length) :
    (((zs.zip vals).foldl (fun d pr => dictSet d pr.1 pr.2) []).map Prod.fst : List ℤ) =
      zs := by
  have hfst : (zs.zip vals).map Prod.fst = zs := List.map_fst_zip zs vals hlen
  have hnd' : (([] ++ zs.zip vals).map Prod.fst).Nodup := by
    rw [List.nil_append, hfst]
    exact hnd
  rw [foldl_dictSet_nodup (zs.zip vals) [] hnd', List.nil_append, hfst]

theorem prepGo_ok_untouched {α : Type} (shape : α → ℕ × ℕ) (task : SegTask α)
    (images : ImageSet α) :
    ∀ (l : List (TaskInput α)) (cur : ImageSet α) (s0 : Option (ℚ × ℚ))
      (st' : ImageSet α × Option (ℚ × ℚ)),
      prepGo shape task images l (cur, s0) = Except.ok st' →
      ∀ c, (∀ inp ∈ l, inp.image_channel ≠ c) →
        dictGet st'.1 c = dictGet cur c := by
  intro l
  induction l with
  | nil =>
    intro cur s0 st' h c _
    simp only [prepGo, Except.ok.injEq] at h
    rw [← h]
  | cons inp rest ih =>
    intro cur s0 st' h c hc
    rcases hpi : processInput shape task images (cur, s0) inp with e | st₁
    · rw [prepGo, hpi] at h
      exact absurd h (by simp)
    · rw [prepGo, hpi] at h
      obtain ⟨cur₁, s1⟩ := st₁
      rcases processInput_ok_inv hpi with ⟨zs, c0, cs, hch, _, _, _, _, _, hcur⟩
      have hrest := ih cur₁ s1 st' h c
        (fun u hu => hc u (List.mem_cons_of_mem inp hu))
      rw [hrest, hcur, dictGet_dictSet,
        if_neg (fun hcc => hc inp (List.mem_cons_self inp rest) hcc.symm)]

theorem prepGo_ok_channel_keys {α : Type} (shape : α → ℕ × ℕ) (task : SegTask α)
    (images : ImageSet α) (hwf : ∀ p ∈ images, (p.2.map Prod.fst).Nodup) :
    ∀ (l : List (TaskInput α)) (cur : ImageSet α) (s0 : Option (ℚ × ℚ))
      (st' : ImageSet α × Option (ℚ × ℚ)),
      prepGo shape task images l (cur, s0) = Except.ok st' →
      ∀ inp ∈ l, ∃ zstack inner,
        dictGet images inp.image_channel = some zstack ∧
        dictGet st'.1 inp.image_channel = some inner ∧
        inner.map Prod.fst = sortedTaskZ task zstack := by
  intro l
  induction l with
  | nil =>
    intro cur s0 st' _ inp hinp
    simp at hinp
  | cons inp0 rest ih =>
    intro cur s0 st' h inp hinp
    rcases hpi : processInput shape task images (cur, s0) inp0 with e | st₁
    · rw [prepGo, hpi] at h
      exact absurd h (by simp)
    rw [prepGo, hpi] at h
    obtain ⟨cur₁, s1⟩ := st₁
    rcases processInput_ok_inv hpi with ⟨zs, c0, cs, hch, _, _, _, _, hlen2, hcur⟩
    have hkeys : ((((sortedTaskZ task zs).zip
        (inp0.image_preprocessing (channelBatch task zs))).foldl
        (fun d pr => dictSet d pr.1 pr.2) []).map Prod.fst : List ℤ) =
        sortedTaskZ task zs :=
      restrict_fold_keys _ (sortedTaskZ_nodup (hwf _ (dictGet_some_mem hch))) hlen2
    rcases List.mem_cons.mp hinp with rfl | hinp'
    · by_cases hrest : ∀ u ∈ rest, u.image_channel ≠ inp.image_channel
      · have huntouched := prepGo_ok_untouched shape task images rest cur₁ s1 st' h
          inp.image_channel hrest
        refine ⟨zs, _, hch, ?_, hkeys⟩
        rw [huntouched, hcur, dictGet_dictSet, if_pos rfl]
      · push_neg at hrest
        rcases hrest with ⟨u, hu, huc⟩
        rcases ih cur₁ s1 st' h u hu with ⟨zs', inner', hch', hout', hkeys'⟩
        rw [huc] at hch' hout'
        have : zs' = zs := Option.some_inj.mp (hch'.symm.trans hch)
        refine ⟨zs, inner', hch, hout', ?_⟩
        rw [hkeys', this]
    · exact ih cur₁ s1 st' h inp hinp'

/-- C6: if processing reaches an input whose channel is present in the Image
Set but whose z-layer intersection with `task.z_layers` is empty,
`get_prepared_images` raises the `ValueError` naming that channel and the task
identifier; on success every processed channel's stored z-layers are exactly
`sortedTaskZ` — and `sortedTaskZ` is precisely the intersection of the
channel's available z-layers with `task.z_layers`, sorted ascending. -/
theorem get_prepared_images_empty_intersection {α : Type} (shape : α → ℕ × ℕ)
    (task : SegTask α) (images : ImageSet α) :
    (∀ pre inp post st zstack, task.task_input_data = pre ++ inp :: post →
      prepGo shape task images pre ([], none) = Except.ok st →
      dictGet images inp.image_channel = some zstack →
      sortedTaskZ task zstack = [] →
      get_prepared_images shape task images =
        Except.error (PrepErr.emptyIntersection inp.image_channel task.task_id)) ∧
    (∀ out s, get_prepared_images shape task images = Except.ok (out, s) →
      (∀ p ∈ images, (p.2.map Prod.fst).Nodup) →
      ∀ inp ∈ task.task_input_data, ∃ zstack inner,
        dictGet images inp.image_channel = some zstack ∧
        dictGet out inp.image_channel = some inner ∧
        inner.map Prod.fst = sortedTaskZ task zstack) ∧
    (∀ zstack : ZStack α, (sortedTaskZ task zstack).Sorted (· ≤ ·) ∧
      ∀ z : ℤ, z ∈ sortedTaskZ task zstack ↔
        z ∈ zstack.map Prod.fst ∧ z ∈ task.z_layers) := by
  refine ⟨?_, ?_, ?_⟩
  · intro pre inp post st zstack hsplit hpre hch hempty
    have hstep : processInput shape task images st inp =
        Except.error (PrepErr.emptyIntersection inp.image_channel task.task_id) := by
      unfold processInput
      simp only [hch]
      rw [if_pos (by rw [hempty]; rfl)]
    have hfull : prepGo shape task images task.task_input_data ([], none) =
        Except.error (PrepErr.emptyIntersection inp.image_channel task.task_id) := by
      rw [hsplit, prepGo_append]
      simp only [hpre]
      rw [prepGo, hstep]
    rw [get_prepared_images, hfull]
  · intro out s h hwf inp hinp
    rcases hpg : prepGo shape task images task.task_input_data ([], none) with e | ⟨cur, s1⟩
    · rw [get_prepared_images, hpg] at h
      exact absurd h (by simp)
    rcases s1 with _ | s'
    · rw [get_prepared_images, hpg] at h
      exact absurd h (by simp)
    rw [get_prepared_images, hpg] at h
    simp only [Except.ok.injEq, Prod.mk.injEq] at h
    have := prepGo_ok_channel_keys shape task images hwf task.task_input_data [] none
      (cur, some s') hpg inp hinp
    rw [show cur = out from h.1] at this
    exact this
  · intro zstack
    refine ⟨List.sorted_insertionSort _ _, fun z => mem_sortedTaskZ⟩

/-- C6 witness: channel "A" stores only z-layers 5 and 6 while the task wants
z-layers 0–2, so preparation fails naming channel "A" and task 9. -/
theorem get_prepared_images_empty_intersection_witness :
    get_prepared_images (fun a : ℕ × ℕ => a)
        ⟨9, {0, 1, 2}, [⟨"A", id⟩]⟩ [("A", [(5, (2, 2)), (6, (2, 2))])] =
      Except.error (PrepErr.emptyIntersection "A" 9) := by
  exact (get_prepared_images_empty_intersection (fun a : ℕ × ℕ => a)
      ⟨9, {0, 1, 2}, [⟨"A", id⟩]⟩ [("A", [(5, (2, 2)), (6, (2, 2))])]).1
    [] ⟨"A", id⟩ [] ([], none) [(5, (2, 2)), (6, (2, 2))] rfl rfl rfl (by decide)

/-- C3 counterexample: with the channel "A" entirely absent from the Image Set,
`get_prepared_images` raises the bare `KeyError('A')` from `images[channel]` —
not the descriptive `"no input images found for the task"` `ValueError` (in
either its task-only or channel-naming form). -/
theorem get_prepared_images_missing_channel_counterexample :
    get_prepared_images (fun a : ℕ × ℕ => a)
        (⟨4, {0}, [⟨"A", id⟩]⟩ : SegTask (ℕ × ℕ)) [] =
        Except.error (PrepErr.keyError "A") ∧
      (∀ tid, PrepErr.keyError "A" ≠ PrepErr.noInputImages tid) ∧
      (∀ c tid, PrepErr.keyError "A" ≠ PrepErr.emptyIntersection c tid) :=
  ⟨rfl, fun _ h => PrepErr.noConfusion h, fun _ _ h => PrepErr.noConfusion h⟩

/-- C3 amended: when processing reaches a task input whose channel is entirely
absent from the Image Set's mapping, `get_prepared_images` fails — but with the
`KeyError` naming that channel, not with the `"no input images found for the
task"` `ValueError` (which is raised only when the task produced no scale, or,
channel-naming variant, on an empty z-layer intersection). -/
theorem get_prepared_images_missing_channel {α : Type} (shape : α → ℕ × ℕ)
    (task : SegTask α) (images : ImageSet α) :
    ∀ pre inp post st, task.task_input_data = pre ++ inp :: post →
      prepGo shape task images pre ([], none) = Except.ok st →
      dictGet images inp.image_channel = none →
      get_prepared_images shape task images =
        Except.error (PrepErr.keyError inp.image_channel) := by
  intro pre inp post st hsplit hpre habs
  have hstep : processInput shape task images st inp =
      Except.error (PrepErr.keyError inp.image_channel) := by
    unfold processInput
    simp only [habs]
  have hfull : prepGo shape task images task.task_input_data ([], none) =
      Except.error (PrepErr.keyError inp.image_channel) := by
    rw [hsplit, prepGo_append]
    simp only [hpre]
    rw [prepGo, hstep]
  rw [get_prepared_images, hfull]

/-- C3 amended witness: channel "B" required by the task is absent from an
Image Set holding only channel "A". -/
theorem get_prepared_images_missing_channel_witness :
    get_prepared_images (fun a : ℕ × ℕ => a)
        (⟨4, {0}, [⟨"B", id⟩]⟩ : SegTask (ℕ × ℕ)) [("A", [(0, (2, 2))])] =
      Except.error (PrepErr.keyError "B") :=
  get_prepared_images_missing_channel (fun a : ℕ × ℕ => a) _ _
    [] ⟨"B", id⟩ [] ([], none) rfl rfl rfl

theorem mem_zip_same {γ : Type} : ∀ {l : List γ} {p : γ × γ},
    p ∈ l.zip l → p.1 = p.2 ∧ p.1 ∈ l := by
  intro l
  induction l with
  | nil =>
    intro p hp
    simp at hp
  | cons x xs ih =>
    intro p hp
    rw [List.zip_cons_cons] at hp
    rcases List.mem_cons.mp hp with rfl | hp'
    · exact ⟨rfl, List.mem_cons_self x xs⟩
    · rcases ih hp' with ⟨h1, h2⟩
      exact ⟨h1, List.mem_cons_of_mem x h2⟩

theorem scalesOf_self {α : Type} {shape : α → ℕ × ℕ} {b : α}
    (h1 : (shape b).1 ≠ 0) (h2 : (shape b).2 ≠ 0) : scalesOf shape b b = (1, 1) := by
  rw [scalesOf, div_self (Nat.cast_ne_zero.mpr h1), div_self (Nat.cast_ne_zero.mpr h2)]

theorem inpScales_identity {α : Type} {shape : α → ℕ × ℕ} {task : SegTask α}
    {images : ImageSet α} {inp : TaskInput α} {zstack : ZStack α}
    (hch : dictGet images inp.image_channel = some zstack)
    (hid : inp.image_preprocessing = id)
    (hpos : ∀ b ∈ channelBatch task zstack, (shape b).1 ≠ 0 ∧ (shape b).2 ≠ 0) :
    ∀ p ∈ inpScales shape task images inp, p = (1, 1) := by
  intro p hp
  rw [inpScales_eq hch, hid, id_eq] at hp
  rcases List.mem_map.mp hp with ⟨pr, hpr, hpe⟩
  rcases mem_zip_same hpr with ⟨heq, hmem⟩
  rcases hpos pr.1 hmem with ⟨h1, h2⟩
  rw [← hpe, ← heq, scalesOf_self h1 h2]

theorem prepGo_identity {α : Type} (shape : α → ℕ × ℕ) (task : SegTask α)
    (images : ImageSet α) :
    ∀ (l : List (TaskInput α)),
      (∀ inp ∈ l, inp.image_preprocessing = id) →
      (∀ inp ∈ l, ∃ zstack, dictGet images inp.image_channel = some zstack ∧
        sortedTaskZ task zstack ≠ [] ∧
        ∀ b ∈ channelBatch task zstack, (shape b).1 ≠ 0 ∧ (shape b).2 ≠ 0) →
      ∀ (cur : ImageSet α) (s0 : Option (ℚ × ℚ)), (s0 = none ∨ s0 = some (1, 1)) →
        ∃ cur', prepGo shape task images l (cur, s0) =
            Except.ok (cur', if l.isEmpty then s0 else some (1, 1)) ∧
          (∀ c : String, (∀ inp ∈ l, inp.image_channel ≠ c) →
            dictGet cur' c = dictGet cur c) ∧
          (∀ inp ∈ l, ∃ zstack,
            dictGet images inp.image_channel = some zstack ∧
            dictGet cur' inp.image_channel = some
              (((sortedTaskZ task zstack).zip (channelBatch task zstack)).foldl
                (fun d pr => dictSet d pr.1 pr.2) [])) := by
  intro l
  induction l with
  | nil =>
    intro _ _ cur s0 _
    exact ⟨cur, by simp [prepGo], fun c _ => rfl, by simp⟩
  | cons inp rest ih =>
    intro hid hpres cur s0 hs0
    rcases hpres inp (List.mem_cons_self inp rest) with ⟨zs, hch, hnz, hpos⟩
    have hidi := hid inp (List.mem_cons_self inp rest)
    have hlen : (inp.image_preprocessing (channelBatch task zs)).length =
        (channelBatch task zs).length := by
      rw [hidi]
      rfl
    have hposf : ∀ b ∈ inp.image_preprocessing (channelBatch task zs),
        (shape b).1 ≠ 0 ∧ (shape b).2 ≠ 0 := by
      rw [hidi]
      simpa using hpos
    rcases processInput_step shape task images cur s0 inp hch hnz hlen hposf with
      ⟨c0, cs, hsc, hgood, _⟩
    have hall1 : ∀ p ∈ inpScales shape task images inp, p = (1, 1) :=
      inpScales_identity hch hidi hpos
    have hc0 : c0 = (1, 1) := hall1 c0 (by rw [hsc]; exact List.mem_cons_self _ _)
    have hstep := hgood (fun p hp => (hall1 p hp).trans hc0.symm)
      (by rw [hc0]; exact hs0)
    have hinner :
        (((sortedTaskZ task zs).zip
            (inp.image_preprocessing (channelBatch task zs))).foldl
          (fun d pr => dictSet d pr.1 pr.2) ([] : ZStack α)) =
        (((sortedTaskZ task zs).zip (channelBatch task zs)).foldl
          (fun d pr => dictSet d pr.1 pr.2) []) := by
      rw [hidi, id_eq]
    rw [hinner, hc0] at hstep
    rcases ih (fun u hu => hid u (List.mem_cons_of_mem inp hu))
        (fun u hu => hpres u (List.mem_cons_of_mem inp hu))
        (dictSet cur inp.image_channel
          (((sortedTaskZ task zs).zip (channelBatch task zs)).foldl
            (fun d pr => dictSet d pr.1 pr.2) []))
        (some (1, 1)) (Or.inr rfl) with ⟨cur', hrest, huntouched, hvals⟩
    refine ⟨cur', ?_, ?_, ?_⟩
    · rw [prepGo]
      simp only [hstep]
      have hiec : (inp :: rest).isEmpty = false := rfl
      rw [hrest, ite_self, hiec, if_neg Bool.false_ne_true]
    · intro c hc
      rw [huntouched c (fun u hu => hc u (List.mem_cons_of_mem inp hu)),
        dictGet_dictSet,
        if_neg (fun hcc => hc inp (List.mem_cons_self inp rest) hcc.symm)]
    · intro u hu
      rcases List.mem_cons.mp hu with rfl | hu'
      · by_cases hrestc : ∀ v ∈ rest, v.image_channel ≠ u.image_channel
        · refine ⟨zs, hch, ?_⟩
          rw [huntouched u.image_channel hrestc, dictGet_dictSet, if_pos rfl]
        · push_neg at hrestc
          rcases hrestc with ⟨v, hv, hvc⟩
          rcases hvals v hv with ⟨zs', hch', hout'⟩
          rw [hvc] at hch' hout'
          have hzz : zs' = zs := Option.some_inj.mp (hch'.symm.trans hch)
          refine ⟨zs, hch, ?_⟩
          rw [hout', hzz]
      · exact hvals u hu'

/-- C5 amended: for a task with at least one input descriptor, all of whose
pipelines are the identity transform, and an Image Set containing every task
channel with a nonempty z-layer intersection and positive dimensions on the
selected arrays, `get_prepared_images` returns scale `(1.0, 1.0)` and the
per-channel restriction of the input to the z-layers of the intersection. -/
theorem get_prepared_images_identity {α : Type} (shape : α → ℕ × ℕ)
    (task : SegTask α) (images : ImageSet α)
    (hne : task.task_input_data ≠ [])
    (hid : ∀ inp ∈ task.task_input_data, inp.image_preprocessing = id)
    (hpres : ∀ inp ∈ task.task_input_data, ∃ zstack,
      dictGet images inp.image_channel = some zstack ∧
      sortedTaskZ task zstack ≠ [] ∧
      ∀ b ∈ channelBatch task zstack, (shape b).1 ≠ 0 ∧ (shape b).2 ≠ 0) :
    ∃ out, get_prepared_images shape task images = Except.ok (out, (1, 1)) ∧
      ∀ inp ∈ task.task_input_data, ∀ z : ℤ,
        dictGet2 out inp.image_channel z =
          if z ∈ task.z_layers then dictGet2 images inp.image_channel z else none := by
  rcases prepGo_identity shape task images task.task_input_data hid hpres [] none
    (Or.inl rfl) with ⟨out, hpg, _, hvals⟩
  have hie : task.task_input_data.isEmpty = false := by
    rcases h : task.task_input_data with _ | ⟨a, l⟩
    · exact absurd h hne
    · rfl
  rw [hie, if_neg Bool.false_ne_true] at hpg
  refine ⟨out, ?_, ?_⟩
  · rw [get_prepared_images, hpg]
  · intro inp hinp z
    rcases hvals inp hinp with ⟨zs, hch, hout⟩
    simp only [dictGet2, hout, Option.some_bind]
    rw [show channelBatch task zs =
      (sortedTaskZ task zs).filterMap (fun z => dictGet zs z) from rfl]
    rw [restrict_fold_lookup (fun z => dictGet zs z) (sortedTaskZ task zs)
      sortedTaskZ_keys [] z]
    by_cases hzl : z ∈ task.z_layers
    · rw [if_pos hzl]
      by_cases hk : z ∈ zs.map Prod.fst
      · rw [if_pos (mem_sortedTaskZ.mpr ⟨hk, hzl⟩)]
        rw [hch, Option.some_bind]
      · rw [if_neg (fun hc => hk (mem_sortedTaskZ.mp hc).1)]
        rw [hch, Option.some_bind, dictGet_none_of_not_mem hk]
        rfl
    · rw [if_neg hzl, if_neg (fun hc => hzl (mem_sortedTaskZ.mp hc).2)]
      rfl

/-- C5 counterexample to the unamended claim: a task with zero input
descriptors vacuously has identity pipelines and all channels present, yet
`get_prepared_images` raises the no-input `ValueError` instead of returning
scale `(1.0, 1.0)`; and a selected 0×2 source image under an identity pipeline
raises `ZeroDivisionError`. -/
theorem get_prepared_images_identity_counterexample :
    get_prepared_images (fun a : ℕ × ℕ => a) (⟨5, {0}, []⟩ : SegTask (ℕ × ℕ))
        [("A", [(0, (2, 2))])] = Except.error (PrepErr.noInputImages 5) ∧
    get_prepared_images (fun a : ℕ × ℕ => a)
        (⟨6, {0}, [⟨"A", id⟩]⟩ : SegTask (ℕ × ℕ)) [("A", [(0, (0, 2))])] =
      Except.error PrepErr.zeroDivision :=
  ⟨rfl, rfl⟩

/-- C5 witness: one identity-pipeline channel with z-layers {1, 0, 7} in the
set and task z-layers {0, 1}: the result keeps z-layers 0 and 1 unchanged at
scale (1, 1) and drops z-layer 7. -/
theorem get_prepared_images_identity_witness :
    ∃ out, get_prepared_images (fun a : ℕ × ℕ => a)
        (⟨5, {0, 1}, [⟨"A", id⟩]⟩ : SegTask (ℕ × ℕ))
        [("A", [(1, (2, 3)), (0, (2, 3)), (7, (9, 9))])] = Except.ok (out, (1, 1)) ∧
      dictGet2 out "A" 0 = some (2, 3) ∧ dictGet2 out "A" 7 = none := by
  rcases get_prepared_images_identity (fun a : ℕ × ℕ => a)
      (⟨5, {0, 1}, [⟨"A", id⟩]⟩ : SegTask (ℕ × ℕ))
      [("A", [(1, (2, 3)), (0, (2, 3)), (7, (9, 9))])]
      (List.cons_ne_nil _ _)
      (fun inp hinp => by rw [List.mem_singleton.mp hinp])
      (fun inp hinp => by
        rw [List.mem_singleton.mp hinp]
        exact ⟨[(1, (2, 3)), (0, (2, 3)), (7, (9, 9))], rfl, by decide, by decide⟩)
    with ⟨out, hok, hlook⟩
  refine ⟨out, hok, ?_, ?_⟩
  · rw [hlook ⟨"A", id⟩ (List.mem_singleton.mpr rfl) 0, if_pos (by decide)]
    rfl
  · rw [hlook ⟨"A", id⟩ (List.mem_singleton.mpr rfl) 7, if_neg (by decide)]

/-- Big-step relation of the loop over `task.task_input_data`: either the list
is exhausted with the final state, or the head iteration raises, or it
succeeds and the relation continues on the tail. -/
inductive PrepStep {α : Type} (shape : α → ℕ × ℕ) (task : SegTask α)
    (images : ImageSet α) :
    List (TaskInput α) → ImageSet α × Option (ℚ × ℚ) →
      Except PrepErr (ImageSet α × Option (ℚ × ℚ)) → Prop
  | nil (st) : PrepStep shape task images [] st (Except.ok st)
  | stepErr (inp rest st e) :
      processInput shape task images st inp = Except.error e →
      PrepStep shape task images (inp :: rest) st (Except.error e)
  | stepOk (inp rest st st' r) :
      processInput shape task images st inp = Except.ok st' →
      PrepStep shape task images rest st' r →
      PrepStep shape task images (inp :: rest) st r

/-- Big-step relation of one whole `get_prepared_images` invocation: the loop
runs from the fresh state `(ImageSet(), None)` and the no-scale outcome maps
to the no-input `ValueError`. -/
inductive Prepares {α : Type} (shape : α → ℕ × ℕ) (task : SegTask α)
    (images : ImageSet α) : Except PrepErr (ImageSet α × (ℚ × ℚ)) → Prop
  | err (e) :
      PrepStep shape task images task.task_input_data ([], none) (Except.error e) →
      Prepares shape task images (Except.error e)
  | noScale (cur) :
      PrepStep shape task images task.task_input_data ([], none)
        (Except.ok (cur, none)) →
      Prepares shape task images (Except.error (PrepErr.noInputImages task.task_id))
  | done (cur s) :
      PrepStep shape task images task.task_input_data ([], none)
        (Except.ok (cur, some s)) →
      Prepares shape task images (Except.ok (cur, s))

theorem prepStep_eq_prepGo {α : Type} {shape : α → ℕ × ℕ} {task : SegTask α}
    {images : ImageSet α} :
    ∀ {l : List (TaskInput α)} {st r}, PrepStep shape task images l st r →
      r = prepGo shape task images l st := by
  intro l st r h
  induction h with
  | nil st => rfl
  | stepErr inp rest st e hpi => rw [prepGo, hpi]
  | stepOk inp rest st st' r hpi _ ih =>
    rw [prepGo, hpi]
    exact ih

theorem prepGo_prepStep {α : Type} (shape : α → ℕ × ℕ) (task : SegTask α)
    (images : ImageSet α) :
    ∀ (l : List (TaskInput α)) (st : ImageSet α × Option (ℚ × ℚ)),
      PrepStep shape task images l st (prepGo shape task images l st) := by
  intro l
  induction l with
  | nil =>
    intro st
    exact PrepStep.nil st
  | cons inp rest ih =>
    intro st
    rcases hpi : processInput shape task images st inp with e | st'
    · have heq : prepGo shape task images (inp :: rest) st = Except.error e := by
        rw [prepGo, hpi]
      rw [heq]
      exact PrepStep.stepErr inp rest st e hpi
    · have heq : prepGo shape task images (inp :: rest) st =
          prepGo shape task images rest st' := by
        rw [prepGo, hpi]
      rw [heq]
      exact PrepStep.stepOk inp rest st st' _ hpi (ih st')

/-- C8: `get_prepared_images` is deterministic and stateless across calls —
the big-step relation of an invocation holds of exactly one result, namely the
one the (pure) function computes, so two invocations on the same task and
Image Set agree bit-for-bit, on success and on failure alike. -/
theorem get_prepared_images_deterministic {α : Type} (shape : α → ℕ × ℕ)
    (task : SegTask α) (images : ImageSet α) :
    (∀ r, Prepares shape task images r ↔ r = get_prepared_images shape task images) ∧
    (∀ r₁ r₂, Prepares shape task images r₁ → Prepares shape task images r₂ →
      r₁ = r₂) := by
  have hfwd : ∀ r, Prepares shape task images r →
      r = get_prepared_images shape task images := by
    intro r h
    cases h with
    | err e hstep =>
      have heq := prepStep_eq_prepGo hstep
      rw [get_prepared_images, ← heq]
    | noScale cur hstep =>
      have heq := prepStep_eq_prepGo hstep
      rw [get_prepared_images, ← heq]
    | done cur s hstep =>
      have heq := prepStep_eq_prepGo hstep
      rw [get_prepared_images, ← heq]
  have hbwd : Prepares shape task images (get_prepared_images shape task images) := by
    have hstep := prepGo_prepStep shape task images task.task_input_data ([], none)
    rcases hpg : prepGo shape task images task.task_input_data ([], none) with
      e | ⟨cur, s1⟩
    · rw [hpg] at hstep
      have heq : get_prepared_images shape task images = Except.error e := by
        rw [get_prepared_images, hpg]
      rw [heq]
      exact Prepares.err e hstep
    · rw [hpg] at hstep
      rcases s1 with _ | s'
      · have heq : get_prepared_images shape task images =
            Except.error (PrepErr.noInputImages task.task_id) := by
          rw [get_prepared_images, hpg]
        rw [heq]
        exact Prepares.noScale cur hstep
      · have heq : get_prepared_images shape task images = Except.ok (cur, s') := by
          rw [get_prepared_images, hpg]
        rw [heq]
        exact Prepares.done cur s' hstep
  refine ⟨fun r => ⟨hfwd r, ?_⟩, fun r₁ r₂ h1 h2 => (hfwd r₁ h1).trans (hfwd r₂ h2).symm⟩
  intro hr
  rw [hr]
  exact hbwd

/-- C8 witness: both directions of the characterisation at a concrete task
with no inputs, whose unique outcome is the no-input error. -/
theorem get_prepared_images_deterministic_witness :
    Prepares (fun a : ℕ × ℕ => a) (⟨2, {0}, []⟩ : SegTask (ℕ × ℕ)) []
      (Except.error (PrepErr.noInputImages 2)) :=
  ((get_prepared_images_deterministic (fun a : ℕ × ℕ => a)
      (⟨2, {0}, []⟩ : SegTask (ℕ × ℕ)) []).1 _).mpr rfl

end VptCore
